import Mathlib

/-!
Verification development for the proton-ge-manager repository
(release discovery and archive installation pipeline).

The Go source is shallowly embedded:
* strings are modelled as Lean `String`s manipulated through their
  character lists (Go's `strings.ToLower` is modelled at ASCII level,
  which is exact for every string the program compares against);
* `path/filepath.Clean`, `Join` and `Dir` are modelled by the documented
  lexical algorithm on `/`-separated segments (Unix build, no volume names);
* the tar-extraction loop of `install.DownloadAndExtract`
  (src/unnamed/part_001, identical to `downloadAndExtract` in src/main.go)
  is modelled as a fold over the archive's entries producing the list of
  filesystem writes, the warning list and the `createdTopFolder` tracker.
  Filesystem primitives that the claims do not exercise (`MkdirAll`,
  `OpenFile`, `io.Copy`) are modelled as always succeeding; `os.Symlink`
  is given an explicit success oracle because the code handles its failure;
* the pagination loop and HTTP status handling of
  `github.FetchAllReleases` (src/internal/github/releases.go, identical to
  `fetchAllReleases` in src/main.go) are modelled against an abstract
  page → response oracle, with explicit fuel for the unbounded loop;
* `github.PickLinuxTarball` is modelled including the exact sorting
  algorithm the Go standard library executes for `slices.SortFunc`
  (the pattern-defeating quicksort of `internal/sort`, Go 1.21+), since
  that sort is not stable and the stability claim depends on it.
  Loops are written as fuel-based structural recursions (fuel chosen at
  each call site to dominate the loop's iteration count) so that every
  definition evaluates by kernel reduction.
-/

namespace PGM

/-! ### Character-level string helpers (Go `strings` package) -/

/-- Go `strings.ToLower`, at ASCII granularity (all comparisons in the
program involve ASCII needles such as ".tar.gz" and "ge-proton"). -/
def strToLower (s : String) : String :=
  String.mk (s.toList.map Char.toLower)

/-- Go `strings.HasSuffix s suf`. -/
def strEndsWith (s suf : String) : Bool :=
  suf.toList.isSuffixOf s.toList

/-- Go `strings.HasPrefix s pre`. -/
def strStartsWith (s p : String) : Bool :=
  p.toList.isPrefixOf s.toList

def strContainsAux (needle : List Char) : List Char → Bool
  | [] => needle.isEmpty
  | c :: rest => needle.isPrefixOf (c :: rest) || strContainsAux needle rest

/-- Go `strings.Contains s sub`. -/
def strContains (s sub : String) : Bool :=
  strContainsAux sub.toList s.toList

/-! ### `path/filepath` (Unix) -/

/-- Go `strings.Split cs "/"` on character lists: the list of
`/`-separated segments (always non-empty, empty segments kept). -/
def splitSlash : List Char → List (List Char)
  | [] => [[]]
  | c :: rest =>
    if c = '/' then [] :: splitSlash rest
    else
      match splitSlash rest with
      | [] => [[c]]
      | s :: ss => (c :: s) :: ss

/-- One step of `filepath.Clean`'s lexical processing: push a raw segment
onto the stack of output segments. -/
def cleanSegStep (rooted : Bool) (stack : List (List Char)) (seg : List Char) :
    List (List Char) :=
  if seg = [] ∨ seg = ['.'] then stack
  else if seg = ['.', '.'] then
    if stack ≠ [] ∧ stack.getLast? ≠ some ['.', '.'] then stack.dropLast
    else if rooted then stack
    else stack ++ [['.', '.']]
  else stack ++ [seg]

/-- Go `path/filepath.Clean` on Unix: purely lexical shortest equivalent
path (collapse separators, drop `.`, resolve inner `..`, drop rooted
leading `..`, `"."` for an empty result). -/
def filepathClean (p : String) : String :=
  if p = "" then "."
  else
    let cs := p.toList
    let rooted := cs.head? = some '/'
    let segs := (splitSlash cs).foldl (cleanSegStep rooted) []
    if rooted then String.mk ('/' :: List.intercalate ['/'] segs)
    else if segs = [] then "." else String.mk (List.intercalate ['/'] segs)

/-- Go `path/filepath.Join a b` (two-argument form used by the program):
empty elements are ignored, the rest joined with `/` and Cleaned;
all-empty input gives the empty string. -/
def filepathJoin (a b : String) : String :=
  if a = "" ∧ b = "" then ""
  else if a = "" then filepathClean b
  else if b = "" then filepathClean a
  else filepathClean (String.mk (a.toList ++ '/' :: b.toList))

/-- Go `path/filepath.Dir`: everything up to and including the final
separator, Cleaned (`"."` when there is no separator). -/
def filepathDir (p : String) : String :=
  filepathClean (String.mk ((p.toList.reverse.dropWhile (fun c => c ≠ '/')).reverse))

/-! ### Tar extraction loop of `install.DownloadAndExtract` -/

/-- Tar entry type flags distinguished by the extraction switch. -/
inductive TypeFlag
  | dir
  | reg
  | symlink
  | other
deriving DecidableEq, Repr

/-- One tar header as consumed by the extraction loop (regular-file
contents are irrelevant to every claim and are omitted). -/
structure TarEntry where
  name : String
  typeflag : TypeFlag
  linkname : String
  mode : Nat
deriving DecidableEq, Repr

/-- A filesystem mutation performed by the extraction loop. -/
inductive FsWrite
  | mkdirAll (path : String) (mode : Nat)
  | regFile (path : String) (mode : Nat)
  | symlink (oldname newname : String)
deriving DecidableEq, Repr

/-- State threaded through the extraction loop. -/
structure ExtractState where
  writes : List FsWrite
  warnings : List (String × String)
  createdTopFolder : String
deriving DecidableEq, Repr

def initExtractState : ExtractState := ⟨[], [], ""⟩

/-- The sanitization test of the extraction loop:
`name == "." || name == "/" || strings.HasPrefix(name, "..")`. -/
def rejectedName (name : String) : Bool :=
  name == "." || name == "/" || strStartsWith name ".."

/-- The symlink-target rewrite:
`link := filepath.Clean(hdr.Linkname); if HasPrefix(link, "..") { link = TrimPrefix(link, "../") }`
(`TrimPrefix` only strips when `"../"` itself is a prefix). -/
def sanitizeLink (linkname : String) : String :=
  let link := filepathClean linkname
  if strStartsWith link ".." then
    (if strStartsWith link "../" then link.drop 3 else link)
  else link

/-- One iteration of the entry loop in `install.DownloadAndExtract`
(src/unnamed/part_001 lines 106-160).  `symlinkOk link target` is the
success oracle for `os.Symlink link target`. -/
def processEntry (destRoot : String) (symlinkOk : String → String → Bool)
    (st : ExtractState) (e : TarEntry) : ExtractState :=
  let name := filepathClean e.name
  if rejectedName name then st
  else
    let parts := (splitSlash name.toList).map String.mk
    let st :=
      if st.createdTopFolder == "" && decide (0 < parts.length) then
        { st with createdTopFolder := parts.headD "" }
      else st
    let targetPath := filepathJoin destRoot name
    match e.typeflag with
    | .dir => { st with writes := st.writes ++ [FsWrite.mkdirAll targetPath e.mode] }
    | .reg =>
      { st with writes :=
          st.writes ++ [FsWrite.mkdirAll (filepathDir targetPath) 493,
            FsWrite.regFile targetPath e.mode] }
    | .symlink =>
      let st :=
        { st with writes := st.writes ++ [FsWrite.mkdirAll (filepathDir targetPath) 493] }
      let link := sanitizeLink e.linkname
      if symlinkOk link targetPath then
        { st with writes := st.writes ++ [FsWrite.symlink link targetPath] }
      else
        { st with warnings := st.warnings ++ [(targetPath, link)] }
    | .other => st

/-- The whole extraction phase of `install.DownloadAndExtract`: fold the
entry loop over the archive's entries, then fail exactly when no
`createdTopFolder` was recorded (lines 162-166). -/
def DownloadAndExtract (destRoot : String) (symlinkOk : String → String → Bool)
    (entries : List TarEntry) : Except String ExtractState :=
  let st := entries.foldl (processEntry destRoot symlinkOk) initExtractState
  if st.createdTopFolder == "" then
    .error "unexpected archive layout (no top folder)"
  else .ok st

/-- The `createdTopFolder` contribution of a single entry: `none` for
sanitization-rejected entries, otherwise the entry's first path segment
(which is the empty string for absolute cleaned names). -/
def topCandidate (e : TarEntry) : Option String :=
  let name := filepathClean e.name
  if rejectedName name then none
  else
    let parts := (splitSlash name.toList).map String.mk
    if 0 < parts.length then some (parts.headD "") else none

/-! ### Release data model (src/internal/github/releases.go) -/

/-- `github.Asset`. -/
structure Asset where
  name : String
  browserDownloadURL : String
  size : Int
  contentType : String
deriving DecidableEq, Inhabited, Repr

/-- `github.Release` (timestamps omitted: no claim inspects them). -/
structure Release where
  tagName : String
  name : String
  prerelease : Bool
  assets : List Asset
  draft : Bool
  body : String
deriving DecidableEq, Inhabited, Repr

/-! ### Go `slices.SortFunc`

`PickLinuxTarball` sorts its candidate slice with `slices.SortFunc`,
which is Go's pattern-defeating quicksort (`internal/sort`, generated
`zsortanyfunc.go`) and is documented as NOT stable.  The claim about the
tie-break depends on the exact algorithm, so it is embedded here in
full.  Go slices become `List α` with out-of-range reads returning
`default` (the embedded code never reads out of range on executed
paths); every loop is a fuel-based structural recursion whose fuel at
the call site dominates the Go loop's iteration count. -/

variable {α : Type} [Inhabited α]

/-- `data[i]`. -/
def lget (l : List α) (i : Nat) : α := l.getD i default

/-- `data[i], data[j] = data[j], data[i]` (no-op when out of range). -/
def lswap (l : List α) (i j : Nat) : List α :=
  if i < l.length ∧ j < l.length then (l.set i (lget l j)).set j (lget l i) else l

/-- The inner loop of Go `insertionSortCmpFunc`: bubble the element at
`j` leftwards while strictly cmp-smaller than its left neighbour. -/
def insertionBubble (cmp : α → α → Int) : Nat → List α → Nat → Nat → List α
  | 0, data, _, _ => data
  | fuel+1, data, a, j =>
    if a < j ∧ cmp (lget data j) (lget data (j-1)) < 0 then
      insertionBubble cmp fuel (lswap data j (j-1)) a (j-1)
    else data

/-- The outer loop of Go `insertionSortCmpFunc` (`i` from `a+1` to `b`). -/
def insertionLoop (cmp : α → α → Int) : Nat → List α → Nat → Nat → Nat → List α
  | 0, data, _, _, _ => data
  | fuel+1, data, a, i, b =>
    if i < b then insertionLoop cmp fuel (insertionBubble cmp i data a i) a (i+1) b
    else data

/-- Go `insertionSortCmpFunc`. -/
def insertionSortGo (cmp : α → α → Int) (data : List α) (a b : Nat) : List α :=
  insertionLoop cmp b data a (a+1) b

/-- Go `siftDownCmpFunc`. -/
def siftDownGo (cmp : α → α → Int) : Nat → List α → Nat → Nat → Nat → List α
  | 0, data, _, _, _ => data
  | fuel+1, data, root, hi, first =>
    let child := 2*root + 1
    if hi ≤ child then data
    else
      let child :=
        if child + 1 < hi ∧ cmp (lget data (first + child)) (lget data (first + child + 1)) < 0
        then child + 1 else child
      if ¬(cmp (lget data (first + root)) (lget data (first + child)) < 0) then data
      else siftDownGo cmp fuel (lswap data (first + root) (first + child)) child hi first

/-- Heap-building phase of Go `heapSortCmpFunc` (`i` from `(hi-1)/2`
down to `0`; the counter argument is `i + 1`). -/
def heapBuildGo (cmp : α → α → Int) : Nat → List α → Nat → Nat → List α
  | 0, data, _, _ => data
  | k+1, data, hi, first => heapBuildGo cmp k (siftDownGo cmp hi data k hi first) hi first

/-- Pop phase of Go `heapSortCmpFunc` (`i` from `hi-1` down to `0`). -/
def heapPopGo (cmp : α → α → Int) : Nat → List α → Nat → List α
  | 0, data, _ => data
  | k+1, data, first =>
    heapPopGo cmp k (siftDownGo cmp k (lswap data first (first + k)) 0 k first) first

/-- Go `heapSortCmpFunc`. -/
def heapSortGo (cmp : α → α → Int) (data : List α) (a b : Nat) : List α :=
  heapPopGo cmp (b - a) (heapBuildGo cmp ((b - a - 1) / 2 + 1) data (b - a) a) a

/-- Go `reverseRangeCmpFunc` (started with `i = a`, `j = b-1`). -/
def reverseRangeGo : Nat → List α → Nat → Nat → List α
  | 0, data, _, _ => data
  | fuel+1, data, i, j =>
    if i < j then reverseRangeGo fuel (lswap data i j) (i+1) (j-1) else data

/-- Go `bits.Len` via fuel-bounded halving. -/
def bitsLenAux : Nat → Nat → Nat
  | 0, _ => 0
  | fuel+1, n => if n = 0 then 0 else bitsLenAux fuel (n / 2) + 1

def bitsLen (n : Nat) : Nat := bitsLenAux (n+1) n

/-- Go `xorshift.Next` on a 64-bit state. -/
def xorshiftNext (r : Nat) : Nat :=
  let r := (r ^^^ (r <<< 13)) % (2^64)
  let r := r ^^^ (r >>> 7)
  (r ^^^ (r <<< 17)) % (2^64)

/-- Go `nextPowerOfTwo`. -/
def nextPowerOfTwo (length : Nat) : Nat := 1 <<< bitsLen length

/-- The three swap iterations of Go `breakPatternsCmpFunc`
(the xorshift state is seeded with the range length). -/
def breakIterGo : Nat → List α → Nat → Nat → Nat → Nat → Nat → Nat → List α
  | 0, data, _, _, _, _, _, _ => data
  | k+1, data, i, random, modulus, idx, a, length =>
    let random := xorshiftNext random
    let other := random % modulus
    let other := if length ≤ other then other - length else other
    breakIterGo k (lswap data (idx - 1 + i) (a + other)) (i+1) random modulus idx a length

/-- Go `breakPatternsCmpFunc`. -/
def breakPatternsGo (data : List α) (a b : Nat) : List α :=
  let length := b - a
  if 8 ≤ length then
    let modulus := nextPowerOfTwo length
    let idx := a + (length / 4) * 2 - 1
    breakIterGo 3 data 0 length modulus idx a length
  else data

inductive SortedHint
  | increasing
  | decreasing
  | unknown
deriving DecidableEq, Repr

/-- Go `order2CmpFunc` (two indices in cmp order plus the swap count). -/
def order2Go (cmp : α → α → Int) (data : List α) (a b swaps : Nat) : Nat × Nat × Nat :=
  if cmp (lget data b) (lget data a) < 0 then (b, a, swaps + 1) else (a, b, swaps)

/-- Go `medianCmpFunc`. -/
def medianGo (cmp : α → α → Int) (data : List α) (a b c swaps : Nat) : Nat × Nat :=
  let (a, b, swaps) := order2Go cmp data a b swaps
  let (b, _, swaps) := order2Go cmp data b c swaps
  let (_, b, swaps) := order2Go cmp data a b swaps
  (b, swaps)

/-- Go `medianAdjacentCmpFunc`. -/
def medianAdjacentGo (cmp : α → α → Int) (data : List α) (a swaps : Nat) : Nat × Nat :=
  medianGo cmp data (a - 1) a (a + 1) swaps

/-- Go `choosePivotCmpFunc` (`shortestNinther = 50`, `maxSwaps = 12`). -/
def choosePivotGo (cmp : α → α → Int) (data : List α) (a b : Nat) : Nat × SortedHint :=
  let l := b - a
  let i := a + l / 4 * 1
  let j := a + l / 4 * 2
  let k := a + l / 4 * 3
  let (j, swaps) :=
    if 8 ≤ l then
      if 50 ≤ l then
        let (i, s) := medianAdjacentGo cmp data i 0
        let (j, s) := medianAdjacentGo cmp data j s
        let (k, s) := medianAdjacentGo cmp data k s
        medianGo cmp data i j k s
      else medianGo cmp data i j k 0
    else (j, 0)
  if swaps = 0 then (j, SortedHint.increasing)
  else if swaps = 12 then (j, SortedHint.decreasing)
  else (j, SortedHint.unknown)

/-- Scan `i` rightwards in Go `partitionCmpFunc`
(`for i <= j && cmp(data[i], data[a]) < 0 { i++ }`). -/
def partScanIGo (cmp : α → α → Int) : Nat → List α → Nat → Nat → Nat → Nat
  | 0, _, _, i, _ => i
  | fuel+1, data, a, i, j =>
    if i ≤ j ∧ cmp (lget data i) (lget data a) < 0 then partScanIGo cmp fuel data a (i+1) j
    else i

/-- Scan `j` leftwards in Go `partitionCmpFunc`
(`for i <= j && !(cmp(data[j], data[a]) < 0) { j-- }`). -/
def partScanJGo (cmp : α → α → Int) : Nat → List α → Nat → Nat → Nat → Nat
  | 0, _, _, _, j => j
  | fuel+1, data, a, i, j =>
    if i ≤ j ∧ ¬(cmp (lget data j) (lget data a) < 0) then partScanJGo cmp fuel data a i (j-1)
    else j

/-- The steady-state loop of Go `partitionCmpFunc`, including the final
pivot placement `data[j], data[a] = data[a], data[j]; return j`. -/
def partitionLoopGo (cmp : α → α → Int) : Nat → List α → Nat → Nat → Nat → List α × Nat
  | 0, data, a, _, j => (lswap data j a, j)
  | fuel+1, data, a, i, j =>
    let i := partScanIGo cmp (j+2) data a i j
    let j' := partScanJGo cmp (j+2) data a i j
    if j' < i then (lswap data j' a, j')
    else partitionLoopGo cmp fuel (lswap data i j') a (i+1) (j'-1)

/-- Go `partitionCmpFunc`: Hoare partition of `data[a:b]` around
`data[pivot]`; returns the array, the pivot's final index, and
`alreadyPartitioned`. -/
def partitionGo (cmp : α → α → Int) (data : List α) (a b pivot : Nat) :
    List α × Nat × Bool :=
  let data := lswap data a pivot
  let i := a + 1
  let j := b - 1
  let i := partScanIGo cmp (j+2) data a i j
  let j' := partScanJGo cmp (j+2) data a i j
  if j' < i then (lswap data j' a, j', true)
  else
    let data := lswap data i j'
    let (data, mid) := partitionLoopGo cmp b data a (i+1) (j'-1)
    (data, mid, false)

/-- Scan `i` rightwards in Go `partitionEqualCmpFunc`. -/
def eqScanIGo (cmp : α → α → Int) : Nat → List α → Nat → Nat → Nat → Nat
  | 0, _, _, i, _ => i
  | fuel+1, data, a, i, j =>
    if i ≤ j ∧ ¬(cmp (lget data a) (lget data i) < 0) then eqScanIGo cmp fuel data a (i+1) j
    else i

/-- Scan `j` leftwards in Go `partitionEqualCmpFunc`. -/
def eqScanJGo (cmp : α → α → Int) : Nat → List α → Nat → Nat → Nat → Nat
  | 0, _, _, _, j => j
  | fuel+1, data, a, i, j =>
    if i ≤ j ∧ cmp (lget data a) (lget data j) < 0 then eqScanJGo cmp fuel data a i (j-1)
    else j

/-- The loop of Go `partitionEqualCmpFunc` (`return i` on break). -/
def partitionEqualLoopGo (cmp : α → α → Int) : Nat → List α → Nat → Nat → Nat → List α × Nat
  | 0, data, _, i, _ => (data, i)
  | fuel+1, data, a, i, j =>
    let i := eqScanIGo cmp (j+2) data a i j
    let j' := eqScanJGo cmp (j+2) data a i j
    if j' < i then (data, i)
    else partitionEqualLoopGo cmp fuel (lswap data i j') a (i+1) (j'-1)

/-- Go `partitionEqualCmpFunc`. -/
def partitionEqualGo (cmp : α → α → Int) (data : List α) (a b pivot : Nat) : List α × Nat :=
  let data := lswap data a pivot
  partitionEqualLoopGo cmp b data a (a+1) (b-1)

/-- The in-order scan of Go `partialInsertionSortCmpFunc`
(`for i < b && !(cmp(data[i], data[i-1]) < 0) { i++ }`). -/
def scanSortedGo (cmp : α → α → Int) : Nat → List α → Nat → Nat → Nat
  | 0, _, i, _ => i
  | fuel+1, data, i, b =>
    if i < b ∧ ¬(cmp (lget data i) (lget data (i-1)) < 0) then scanSortedGo cmp fuel data (i+1) b
    else i

/-- "Shift the smaller one to the left" loop of Go
`partialInsertionSortCmpFunc` (`for j := i-1; j >= 1; j--`). -/
def shiftTailLeftGo (cmp : α → α → Int) : Nat → List α → Nat → List α
  | 0, data, _ => data
  | fuel+1, data, j =>
    if 1 ≤ j ∧ cmp (lget data j) (lget data (j-1)) < 0 then
      shiftTailLeftGo cmp fuel (lswap data j (j-1)) (j-1)
    else data

/-- "Shift the greater one to the right" loop of Go
`partialInsertionSortCmpFunc` (`for j := i+1; j < b; j++`). -/
def shiftTailRightGo (cmp : α → α → Int) : Nat → List α → Nat → Nat → List α
  | 0, data, _, _ => data
  | fuel+1, data, j, b =>
    if j < b ∧ cmp (lget data j) (lget data (j-1)) < 0 then
      shiftTailRightGo cmp fuel (lswap data j (j-1)) (j+1) b
    else data

/-- The `maxSteps = 5` loop of Go `partialInsertionSortCmpFunc`
(`shortestShifting = 50`); returns the array and the boolean result. -/
def partInsSortLoopGo (cmp : α → α → Int) : Nat → List α → Nat → Nat → Nat → List α × Bool
  | 0, data, _, _, _ => (data, false)
  | k+1, data, a, b, i =>
    let i := scanSortedGo cmp b data i b
    if i = b then (data, true)
    else if b - a < 50 then (data, false)
    else
      let data := lswap data i (i-1)
      let data := if 2 ≤ i - a then shiftTailLeftGo cmp i data (i-1) else data
      let data := if 2 ≤ b - i then shiftTailRightGo cmp b data (i+1) b else data
      partInsSortLoopGo cmp k data a b i

/-- Go `partialInsertionSortCmpFunc` (starts its scan at `i = a + 1`). -/
def partInsSortGo (cmp : α → α → Int) (data : List α) (a b : Nat) : List α × Bool :=
  partInsSortLoopGo cmp 5 data a b (a+1)

/-- `if !wasBalanced { breakPatternsCmpFunc(data, a, b); ... }` of Go
`pdqsortCmpFunc`: the data after the optional pattern breaking. -/
def breakStageGo (data : List α) (a b : Nat) (wb : Bool) : List α :=
  if ¬wb then breakPatternsGo data a b else data

/-- The matching `limit--` of the pattern-breaking step. -/
def limitStageGo (limit : Nat) (wb : Bool) : Nat :=
  if ¬wb then limit - 1 else limit

/-- `if hint == decreasingHint { reverseRangeCmpFunc(data, a, b); ... }`
of Go `pdqsortCmpFunc`: the data after the optional reversal. -/
def reverseStageGo (cmp : α → α → Int) (data1 : List α) (a b : Nat) : List α :=
  if (choosePivotGo cmp data1 a b).2 = SortedHint.decreasing then
    reverseRangeGo b data1 a (b-1)
  else data1

/-- The matching pivot re-index `pivot = (b - 1) - (pivot - a)`. -/
def pivotStageGo (cmp : α → α → Int) (data1 : List α) (a b : Nat) : Nat :=
  if (choosePivotGo cmp data1 a b).2 = SortedHint.decreasing then
    (b-1) - ((choosePivotGo cmp data1 a b).1 - a)
  else (choosePivotGo cmp data1 a b).1

/-- The matching `hint = increasingHint` rewrite. -/
def hintStageGo (cmp : α → α → Int) (data1 : List α) (a b : Nat) : SortedHint :=
  if (choosePivotGo cmp data1 a b).2 = SortedHint.decreasing then SortedHint.increasing
  else (choosePivotGo cmp data1 a b).2

/-- The guarded `partialInsertionSortCmpFunc` attempt of Go
`pdqsortCmpFunc` (data after it, plus the early-return flag). -/
def partInsStageGo (cmp : α → α → Int) (data1 : List α) (a b : Nat) (wb wp : Bool) :
    List α × Bool :=
  if wb ∧ wp ∧ hintStageGo cmp data1 a b = SortedHint.increasing then
    partInsSortGo cmp (reverseStageGo cmp data1 a b) a b
  else (reverseStageGo cmp data1 a b, false)

/-- Go `pdqsortCmpFunc` (`maxInsertion = 12`).  Each loop iteration /
recursive call strictly shrinks `b - a`, so any fuel of at least
`b - a + 1` reproduces the Go control flow exactly.  Go's mutations and
multiple-assignments are staged through the helper definitions above; a
fresh recursive invocation restarts with
`wasBalanced = wasPartitioned = true` exactly as the Go locals do,
while the `continue` paths keep the current values. -/
def pdqsortLoopGo (cmp : α → α → Int) :
    Nat → List α → Nat → Nat → Nat → Bool → Bool → List α
  | 0, data, _, _, _, _, _ => data
  | fuel+1, data, a, b, limit, wasBalanced, wasPartitioned =>
    if b - a ≤ 12 then insertionSortGo cmp data a b
    else if limit = 0 then heapSortGo cmp data a b
    else
      let data1 := breakStageGo data a b wasBalanced
      let limit1 := limitStageGo limit wasBalanced
      let pivot := pivotStageGo cmp data1 a b
      let pis := partInsStageGo cmp data1 a b wasBalanced wasPartitioned
      let data3 := pis.1
      if pis.2 then data3
      else if 0 < a ∧ ¬(cmp (lget data3 (a-1)) (lget data3 pivot) < 0) then
        let pe := partitionEqualGo cmp data3 a b pivot
        pdqsortLoopGo cmp fuel pe.1 pe.2 b limit1 wasBalanced wasPartitioned
      else
        let pt := partitionGo cmp data3 a b pivot
        let mid := pt.2.1
        let newBalanced := decide ((b - a) / 8 ≤ min (mid - a) (b - mid))
        if mid - a < b - mid then
          pdqsortLoopGo cmp fuel (pdqsortLoopGo cmp fuel pt.1 a mid limit1 true true)
            (mid + 1) b limit1 newBalanced pt.2.2
        else
          pdqsortLoopGo cmp fuel (pdqsortLoopGo cmp fuel pt.1 (mid + 1) b limit1 true true)
            a mid limit1 newBalanced pt.2.2

/-- Go `slices.SortFunc`: `pdqsortCmpFunc(x, 0, n, bits.Len(uint(n)), cmp)`. -/
def sortFuncGo (cmp : α → α → Int) (data : List α) : List α :=
  pdqsortLoopGo cmp (data.length + 1) data 0 data.length (bitsLen data.length) true true

/-! ### `github.PickLinuxTarball` -/

/-- The comparator passed to `slices.SortFunc` in `PickLinuxTarball`
(descending by declared size). -/
def cmpAssetSize (a b : Asset) : Int :=
  if a.size = b.size then 0 else if a.size < b.size then 1 else -1

/-- Tier-1 acceptance: name ends `.tar.gz` and contains `ge-proton`
(case-insensitive). -/
def isTier1Asset (a : Asset) : Bool :=
  strEndsWith (strToLower a.name) ".tar.gz" && strContains (strToLower a.name) "ge-proton"

/-- Tier-2 acceptance: name ends `.tar.gz` (case-insensitive). -/
def isTarballAsset (a : Asset) : Bool :=
  strEndsWith (strToLower a.name) ".tar.gz"

/-- The candidate slice of `PickLinuxTarball` after its two filtering
loops: tier 1 if non-empty, else tier 2. -/
def tarballCands (assets : List Asset) : List Asset :=
  let cands := assets.filter isTier1Asset
  if cands.isEmpty then assets.filter isTarballAsset else cands

/-- `github.PickLinuxTarball` (src/internal/github/releases.go lines
106-135); `none` models the `(Asset{}, false)` result. -/
def PickLinuxTarball (assets : List Asset) : Option Asset :=
  let cands := tarballCands assets
  if cands.isEmpty then none
  else some (lget (sortFuncGo cmpAssetSize cands) 0)

/-- Spec-side selection ("largest declared size wins — ties keep the
first-encountered order"): the first-encountered asset of largest size. -/
def specFirstLargest : List Asset → Option Asset
  | [] => none
  | a :: rest => some (rest.foldl (fun best x => if best.size < x.size then x else best) a)

/-- Thirteen tier-1 assets with two ties at the largest size in front:
enough elements (more than `maxInsertion = 12`) to drive `slices.SortFunc`
into its unstable partitioning phase. -/
def cexAssets : List Asset :=
  [⟨"a-ge-proton.tar.gz", "", 100, ""⟩,
   ⟨"b-ge-proton.tar.gz", "", 100, ""⟩,
   ⟨"c-ge-proton.tar.gz", "", 10, ""⟩,
   ⟨"d-ge-proton.tar.gz", "", 50, ""⟩,
   ⟨"e-ge-proton.tar.gz", "", 20, ""⟩,
   ⟨"f-ge-proton.tar.gz", "", 30, ""⟩,
   ⟨"g-ge-proton.tar.gz", "", 60, ""⟩,
   ⟨"h-ge-proton.tar.gz", "", 70, ""⟩,
   ⟨"i-ge-proton.tar.gz", "", 80, ""⟩,
   ⟨"j-ge-proton.tar.gz", "", 40, ""⟩,
   ⟨"k-ge-proton.tar.gz", "", 90, ""⟩,
   ⟨"l-ge-proton.tar.gz", "", 95, ""⟩,
   ⟨"m-ge-proton.tar.gz", "", 85, ""⟩]

/-! ### `github.FetchAllReleases` -/

/-- One HTTP response of the releases endpoint, as far as the fetch loop
inspects it (`payload = none` models a JSON body that fails to decode). -/
structure GhResponse where
  statusCode : Nat
  status : String
  body : List Nat
  payload : Option (List Release)
deriving DecidableEq, Repr

/-- The error results of `FetchAllReleases` (transport errors propagate
unchanged and are outside the model). -/
inductive GhError
  | rateLimited (msg : String)
  | apiError (status : String) (bodyExcerpt : List Nat)
  | decodeError
deriving DecidableEq, Repr

def rateLimitMsg : String :=
  "GitHub API returned 403 (rate limited?). Try setting GITHUB_TOKEN"

/-- ASCII whitespace, matching Go `unicode.IsSpace` on the ASCII range
(the only bytes the zero-byte-free GitHub error bodies contain). -/
def isSpaceByte (b : Nat) : Bool :=
  b == 9 || b == 10 || b == 11 || b == 12 || b == 13 || b == 32

/-- Go `strings.TrimSpace` on the byte excerpt. -/
def trimSpaceBytes (l : List Nat) : List Nat :=
  ((l.dropWhile isSpaceByte).reverse.dropWhile isSpaceByte).reverse

/-- Status handling and decoding of one page response
(src/internal/github/releases.go lines 63-83). -/
def handlePage (r : GhResponse) : Except GhError (List Release) :=
  if r.statusCode == 403 then .error (.rateLimited rateLimitMsg)
  else if r.statusCode < 200 ∨ 300 ≤ r.statusCode then
    .error (.apiError r.status (trimSpaceBytes (r.body.take 4096)))
  else
    match r.payload with
    | none => .error .decodeError
    | some rels => .ok rels

def perPageConst : Nat := 100

/-- The pagination loop of `FetchAllReleases` against a page → response
oracle; returns the accumulated pre-filter releases and the number of
page requests issued (`none` only on fuel exhaustion, i.e. when the Go
loop would still be running).  Appending an empty `rels` is a no-op, so
the Go early-return on an empty page needs no separate case. -/
def fetchPages (api : Nat → GhResponse) :
    Nat → Nat → List Release → Nat → Option (Except GhError (List Release × Nat))
  | 0, _, _, _ => none
  | fuel+1, page, all, reqs =>
    match handlePage (api page) with
    | .error e => some (.error e)
    | .ok rels =>
      let all := all ++ rels
      if all.length < page * perPageConst then some (.ok (all, reqs + 1))
      else fetchPages api fuel (page + 1) all (reqs + 1)

/-- The post-loop filter of `FetchAllReleases`: skip drafts, require a
tarball asset (lines 93-103). -/
def filterReleases (all : List Release) : List Release :=
  all.filter (fun r => !r.draft && (PickLinuxTarball r.assets).isSome)

/-- `github.FetchAllReleases`: paginate, then filter. -/
def FetchAllReleases (fuel : Nat) (api : Nat → GhResponse) :
    Option (Except GhError (List Release)) :=
  match fetchPages api fuel 1 [] 0 with
  | none => none
  | some (.error e) => some (.error e)
  | some (.ok (all, _)) => some (.ok (filterReleases all))

/-- A well-behaved API serving `items` in pages of `perPage = 100`:
full pages followed by one short or empty final page. -/
def pagedApi (items : List Release) (page : Nat) : GhResponse :=
  ⟨200, "200 OK", [], some ((items.drop ((page - 1) * perPageConst)).take perPageConst)⟩

/-! ### Progress reporting in `DownloadAndExtract` -/

/-- `contentLen := resp.ContentLength; if contentLen <= 0 { contentLen = sizeHint }`. -/
def effectiveLen (contentLength sizeHint : Int) : Int :=
  if contentLength ≤ 0 then sizeHint else contentLength

/-- The running `bytesRead` counter of the progress tee: its value after
each chunk passes through the tee writer. -/
def runningTotals (acc : Nat) : List Nat → List Nat
  | [] => []
  | c :: cs => (acc + c) :: runningTotals (acc + c) cs

/-- The fractions handed to `bar.SetValue`, one per chunk, when the
expected length is positive (the `update` closure reports nothing
otherwise). -/
def progressReports (contentLen : Int) (chunks : List Nat) : List ℚ :=
  if 0 < contentLen then
    (runningTotals 0 chunks).map (fun b => (Nat.cast b : ℚ) / (Int.cast contentLen : ℚ))
  else []

/-! ### `ui.loadAvailable`'s installed filter -/

/-- The filter in `ui.loadAvailable` (src/internal/ui/ui.go lines
293-303): drop every release whose lower-cased tag name is the
lower-cased name of an installed folder (the Go `map[string]bool` is
modelled by list membership). -/
def loadAvailableFilter (currentInstalled : List String) (rels : List Release) : List Release :=
  let installed := currentInstalled.map strToLower
  rels.filter (fun r => !(installed.contains (strToLower r.tagName)))

end PGM

namespace PGM

/-! ## Theorems for claims C1 and C10 -/

theorem processEntry_foldl_append (destRoot : String) (ok : String → String → Bool)
    (st : ExtractState) (l₁ l₂ : List TarEntry) :
    (l₁ ++ l₂).foldl (processEntry destRoot ok) st
      = l₂.foldl (processEntry destRoot ok) (l₁.foldl (processEntry destRoot ok) st) :=
  List.foldl_append ..

/-- Claim C1: an archive entry whose `filepath.Clean`-normalized name is
`"."`, `"/"` or begins with `".."` is skipped by the extraction loop: the
state (writes, warnings, top folder) is unchanged — in particular no file
anywhere, inside or outside `destRoot`, is created or modified — and the
whole extraction of any archive containing such an entry behaves exactly
as if the entry were absent, so processing continues with the remaining
entries and the entry never causes an error. -/
theorem extraction_skips_sanitized_entries
    (destRoot : String) (ok : String → String → Bool) (e : TarEntry)
    (h : rejectedName (filepathClean e.name) = true) :
    (∀ st : ExtractState, processEntry destRoot ok st e = st) ∧
    (∀ l₁ l₂ : List TarEntry,
      DownloadAndExtract destRoot ok (l₁ ++ e :: l₂)
        = DownloadAndExtract destRoot ok (l₁ ++ l₂)) := by
  have hskip : ∀ st : ExtractState, processEntry destRoot ok st e = st := by
    intro st
    unfold processEntry
    simp [h]
  refine ⟨hskip, ?_⟩
  intro l₁ l₂
  unfold DownloadAndExtract
  rw [processEntry_foldl_append, processEntry_foldl_append]
  simp [List.foldl_cons, hskip]

/-- Witness for C1 at the spec's own example: the entry
`"../../etc/passwd"` is rejected and the two-entry archive around it
extracts exactly as the one-entry archive without it. -/
theorem extraction_skips_sanitized_entries_witness :
    (∀ st : ExtractState,
      processEntry "dest" (fun _ _ => true) st ⟨"../../etc/passwd", .reg, "", 420⟩ = st) ∧
    (∀ l₁ l₂ : List TarEntry,
      DownloadAndExtract "dest" (fun _ _ => true)
          (l₁ ++ ⟨"../../etc/passwd", .reg, "", 420⟩ :: l₂)
        = DownloadAndExtract "dest" (fun _ _ => true) (l₁ ++ l₂)) :=
  extraction_skips_sanitized_entries "dest" (fun _ _ => true)
    ⟨"../../etc/passwd", .reg, "", 420⟩ (by decide)

/-- Claim C10: the traversal check fires on the two-character prefix
`".."` alone: every entry whose cleaned name begins with `".."` is
skipped (state untouched, nothing extracted), including benign top-level
names such as `"..data"` that are not parent-directory traversals. -/
theorem dotdot_prefix_always_rejected
    (destRoot : String) (ok : String → String → Bool) (st : ExtractState) (e : TarEntry)
    (h : strStartsWith (filepathClean e.name) ".." = true) :
    processEntry destRoot ok st e = st := by
  unfold processEntry
  simp [rejectedName, h]

/-- Witness for C10 at the benign name `"..data"`: its cleaned form still
begins with `".."`, so the entry is skipped. -/
theorem dotdot_prefix_always_rejected_witness :
    processEntry "dest" (fun _ _ => true) initExtractState ⟨"..data", .reg, "", 420⟩
      = initExtractState :=
  dotdot_prefix_always_rejected "dest" (fun _ _ => true) initExtractState
    ⟨"..data", .reg, "", 420⟩ (by decide)

/-! ## The `createdTopFolder` tracker (claims C4 and C8) -/

theorem processEntry_createdTopFolder (d : String) (ok : String → String → Bool)
    (st : ExtractState) (e : TarEntry) :
    (processEntry d ok st e).createdTopFolder
      = if st.createdTopFolder == "" then (topCandidate e).getD "" else st.createdTopFolder := by
  unfold processEntry topCandidate
  by_cases hr : rejectedName (filepathClean e.name) = true
  · simp only [hr, if_true]
    by_cases hst : st.createdTopFolder == "" <;> simp_all
  · simp only [eq_self_iff_true, hr, Bool.not_eq_true] at *
    simp only [hr, Bool.false_eq_true, if_false]
    by_cases hp : 0 < ((splitSlash (filepathClean e.name).toList).map String.mk).length <;>
      by_cases hst : st.createdTopFolder == "" <;>
        cases e.typeflag <;>
          simp_all <;> split <;> rfl

theorem foldl_createdTopFolder (d : String) (ok : String → String → Bool) :
    ∀ (l : List TarEntry) (st : ExtractState),
      (l.foldl (processEntry d ok) st).createdTopFolder
        = if st.createdTopFolder == "" then
            ((l.filterMap topCandidate).filter (fun s => s != "")).headD ""
          else st.createdTopFolder := by
  intro l
  induction l with
  | nil =>
    intro st
    by_cases hst : st.createdTopFolder == "" <;> simp_all
  | cons e rest ih =>
    intro st
    rw [List.foldl_cons, ih, processEntry_createdTopFolder, List.filterMap_cons]
    by_cases hst : st.createdTopFolder == ""
    · cases hc : topCandidate e with
      | none => simp [hst, hc]
      | some h =>
        by_cases hh : h == "" <;> simp_all
    · simp [hst]

theorem headD_empty_iff_nil (l : List String) (h : ∀ s ∈ l, s ≠ "") :
    (l.headD "" = "" ↔ l = []) := by
  cases l with
  | nil => simp
  | cons a rest =>
    simp only [List.headD_cons]
    have := h a (List.mem_cons_self a rest)
    simp [this]

theorem downloadAndExtract_isOk_iff
    (destRoot : String) (ok : String → String → Bool) (entries : List TarEntry) :
    (DownloadAndExtract destRoot ok entries).isOk = false
      ↔ (entries.foldl (processEntry destRoot ok) initExtractState).createdTopFolder = "" := by
  unfold DownloadAndExtract
  by_cases h : (entries.foldl (processEntry destRoot ok) initExtractState).createdTopFolder == ""
  · rw [if_pos h]
    exact ⟨fun _ => by simpa using h, fun _ => rfl⟩
  · rw [if_neg h]
    exact ⟨fun hc => (Bool.noConfusion hc : False).elim,
      fun hc => ((by simpa using h : _ ≠ "") hc).elim⟩

/-- Claim C4 (amended): the `"no top folder"` error occurs exactly when no
entry contributes a nonempty first path segment (every entry is either
rejected by sanitization or has an absolute cleaned name, whose first
segment is empty); on success the reported top folder is the first
nonempty first segment among the surviving entries; the spec's example
archive still yields `"GE-Proton9-5"`. -/
theorem downloadAndExtract_topFolder_amended
    (destRoot : String) (ok : String → String → Bool) (entries : List TarEntry) :
    ((DownloadAndExtract destRoot ok entries).isOk = false
       ↔ (entries.filterMap topCandidate).filter (fun s => s != "") = [])
  ∧ (∀ st, DownloadAndExtract destRoot ok entries = .ok st →
       st.createdTopFolder = ((entries.filterMap topCandidate).filter (fun s => s != "")).headD "")
  ∧ (∃ st, DownloadAndExtract "dest" (fun _ _ => true)
        [⟨"GE-Proton9-5/", .dir, "", 493⟩, ⟨"GE-Proton9-5/bin/run", .reg, "", 420⟩] = .ok st
      ∧ st.createdTopFolder = "GE-Proton9-5") := by
  have hall : ∀ s ∈ (entries.filterMap topCandidate).filter (fun s => s != ""), s ≠ "" := by
    intro s hs
    have := List.of_mem_filter hs
    simpa using this
  have htop : (entries.foldl (processEntry destRoot ok) initExtractState).createdTopFolder
      = ((entries.filterMap topCandidate).filter (fun s => s != "")).headD "" := by
    rw [foldl_createdTopFolder]
    rfl
  have hiff := headD_empty_iff_nil _ hall
  refine ⟨?_, ?_, ⟨_, rfl, rfl⟩⟩
  · rw [downloadAndExtract_isOk_iff, htop]
    exact hiff
  · intro st hst
    unfold DownloadAndExtract at hst
    by_cases h : (entries.foldl (processEntry destRoot ok) initExtractState).createdTopFolder == ""
    · rw [if_pos h] at hst
      cases hst
    · rw [if_neg h] at hst
      cases hst
      exact htop

/-- Witness for the amended C4: on the spec's example archive, the
successful extraction's recorded top folder equals the first nonempty
first path segment of the surviving entries. -/
theorem downloadAndExtract_topFolder_amended_witness :
    ([(⟨"GE-Proton9-5/", .dir, "", 493⟩ : TarEntry),
        ⟨"GE-Proton9-5/bin/run", .reg, "", 420⟩].foldl
        (processEntry "dest" (fun _ _ => true)) initExtractState).createdTopFolder
      = (([(⟨"GE-Proton9-5/", .dir, "", 493⟩ : TarEntry),
          ⟨"GE-Proton9-5/bin/run", .reg, "", 420⟩].filterMap topCandidate).filter
          (fun s => s != "")).headD "" :=
  (downloadAndExtract_topFolder_amended "dest" (fun _ _ => true)
      [⟨"GE-Proton9-5/", .dir, "", 493⟩, ⟨"GE-Proton9-5/bin/run", .reg, "", 420⟩]).2.1
    _ rfl

/-- Counterexample to claim C4 as stated: the single-entry archive
`["/a"]` has a surviving entry (its cleaned name `"/a"` passes
sanitization, and the extraction writes a directory for it), yet
`DownloadAndExtract` still returns the structural `"no top folder"`
error, because an absolute cleaned name contributes an empty first path
segment to the top-folder tracker. -/
theorem downloadAndExtract_topFolder_counterexample :
    DownloadAndExtract "dest" (fun _ _ => true) [⟨"/a", .dir, "", 493⟩]
        = .error "unexpected archive layout (no top folder)"
    ∧ rejectedName (filepathClean "/a") = false
    ∧ ([(⟨"/a", .dir, "", 493⟩ : TarEntry)].foldl
         (processEntry "dest" (fun _ _ => true)) initExtractState).writes ≠ [] :=
  ⟨rfl, by decide, by decide⟩

/-! ## Claim C8: symlink-creation failures are never fatal -/

theorem processEntry_warnings_length (d : String) (st : ExtractState) (e : TarEntry) :
    (processEntry d (fun _ _ => false) st e).warnings.length
      = st.warnings.length
        + (if !(rejectedName (filepathClean e.name)) && (e.typeflag == TypeFlag.symlink)
           then 1 else 0) := by
  unfold processEntry
  by_cases hr : rejectedName (filepathClean e.name) = true
  · simp [hr]
  · simp only [Bool.not_eq_true] at hr
    cases e.typeflag <;> (simp [hr]; split <;> simp)

theorem foldl_warnings_length (d : String) :
    ∀ (l : List TarEntry) (st : ExtractState),
      (l.foldl (processEntry d (fun _ _ => false)) st).warnings.length
        = st.warnings.length
          + (l.filter (fun e => !(rejectedName (filepathClean e.name))
              && (e.typeflag == TypeFlag.symlink))).length := by
  intro l
  induction l with
  | nil => intro st; simp
  | cons e rest ih =>
    intro st
    rw [List.foldl_cons, ih, processEntry_warnings_length]
    by_cases he : (!(rejectedName (filepathClean e.name))
        && (e.typeflag == TypeFlag.symlink)) = true <;>
      (simp [he, List.filter_cons]; try omega)

/-- Claim C8: whether each symlink creation succeeds or fails has no
influence on the extraction outcome: the recorded top folder and the
success/failure of the whole operation are identical under any two
symlink oracles (so extraction continues past failed symlinks and can
return success despite any number of them), and with an always-failing
oracle every surviving symlink entry produces exactly one warning. -/
theorem symlink_failures_are_nonfatal
    (destRoot : String) (ok₁ ok₂ : String → String → Bool) (entries : List TarEntry) :
    ((entries.foldl (processEntry destRoot ok₁) initExtractState).createdTopFolder
       = (entries.foldl (processEntry destRoot ok₂) initExtractState).createdTopFolder)
  ∧ ((DownloadAndExtract destRoot ok₁ entries).isOk
       = (DownloadAndExtract destRoot ok₂ entries).isOk)
  ∧ ((entries.foldl (processEntry destRoot (fun _ _ => false)) initExtractState).warnings.length
       = (entries.filter (fun e => !(rejectedName (filepathClean e.name))
            && (e.typeflag == TypeFlag.symlink))).length) := by
  have h1 : (entries.foldl (processEntry destRoot ok₁) initExtractState).createdTopFolder
      = (entries.foldl (processEntry destRoot ok₂) initExtractState).createdTopFolder := by
    rw [foldl_createdTopFolder, foldl_createdTopFolder]
  refine ⟨h1, ?_, ?_⟩
  · unfold DownloadAndExtract
    dsimp only
    rw [h1]
    by_cases h : (entries.foldl (processEntry destRoot ok₂) initExtractState).createdTopFolder == "" <;>
      simp [h, Except.isOk, Except.toBool]
  · rw [foldl_warnings_length]
    simp [initExtractState]

/-! ## Claim C3: pagination against a well-behaved paged API -/

theorem fetchPages_pagedApi (items : List Release) :
    ∀ (fuel q reqs : Nat), 100 * q ≤ items.length →
      items.length / 100 + 1 ≤ q + fuel →
      fetchPages (pagedApi items) fuel (q + 1) (items.take (100 * q)) reqs
        = some (.ok (items, reqs + (items.length / 100 + 1 - q))) := by
  intro fuel
  induction fuel with
  | zero =>
    intro q reqs hq hfuel
    exfalso
    omega
  | succ fuel ih =>
    intro q reqs hq hfuel
    simp only [fetchPages, handlePage, pagedApi, perPageConst]
    norm_num
    by_cases hlt : items.length < 100 * q + 100
    · rw [if_pos (by omega)]
      rw [show q * 100 = 100 * q by ring, ← List.take_add,
        List.take_of_length_le (by omega)]
      have harith : reqs + 1 = reqs + (items.length / 100 + 1 - q) := by omega
      rw [harith]
    · rw [if_neg (by omega)]
      rw [show q * 100 = 100 * q by ring, ← List.take_add,
        show 100 * q + 100 = 100 * (q + 1) by ring]
      have hih := ih (q + 1) (reqs + 1) (by omega) (by omega)
      rw [hih]
      have harith : reqs + 1 + (items.length / 100 + 1 - (q + 1))
          = reqs + (items.length / 100 + 1 - q) := by
        have hqd : q ≤ items.length / 100 :=
          Nat.le_div_iff_mul_le (by norm_num) |>.mpr (by omega)
        omega
      rw [harith]

/-- Claim C3 (amended): against an API serving `totalItems` records in
pages of 100 (full pages, then one short or empty final page), the
pagination loop accumulates exactly `totalItems` pre-filter records but
issues exactly `totalItems / 100 + 1` page requests — this equals
`ceil(totalItems / 100)` whenever `totalItems` is not a multiple of 100,
and is one more than it when `totalItems` is a multiple of 100
(including `totalItems = 0`), because the loop only stops after a page
whose cumulative yield falls short of `page * 100`. -/
theorem fetch_pagination_amended (items : List Release) (fuel : Nat)
    (h : items.length / 100 + 1 ≤ fuel) :
    fetchPages (pagedApi items) fuel 1 [] 0
      = some (.ok (items, items.length / 100 + 1)) := by
  have := fetchPages_pagedApi items fuel 0 0 (by omega) (by omega)
  simpa using this

/-- Witness for the amended C3: one release, one page, one request. -/
theorem fetch_pagination_amended_witness :
    fetchPages (pagedApi [⟨"GE-Proton9-5", "GE-Proton9-5", false,
        [⟨"GE-Proton9-5.tar.gz", "u", 100, "application/gzip"⟩], false, ""⟩]) 1 1 [] 0
      = some (.ok ([⟨"GE-Proton9-5", "GE-Proton9-5", false,
        [⟨"GE-Proton9-5.tar.gz", "u", 100, "application/gzip"⟩], false, ""⟩], 1)) :=
  fetch_pagination_amended _ 1 (by decide)

/-- Counterexample to claim C3 as stated: for `totalItems = 0` (zero full
pages followed by one empty page) the loop issues 1 request, not
`ceil(0 / 100) = 0` requests. -/
theorem fetch_pagination_counterexample :
    fetchPages (pagedApi ([] : List Release)) 1 1 [] 0 = some (.ok (([] : List Release), 1))
    ∧ ((([] : List Release).length + 100 - 1) / 100 ≠ 1) :=
  ⟨rfl, by decide⟩

/-! ## Claim C5: drafts never reach the installer -/

/-- Claim C5: every release in the catalog fetch's output has
`draft = false` (the post-pagination filter removes drafts), and the
only further operation between that output and the installer —
`loadAvailableFilter` in the UI — only removes releases, so no draft is
ever surfaced. -/
theorem drafts_never_surfaced :
    (∀ (fuel : Nat) (api : Nat → GhResponse) (rels : List Release) (r : Release),
      FetchAllReleases fuel api = some (.ok rels) → r ∈ rels → r.draft = false)
  ∧ (∀ (installed : List String) (rels : List Release) (r : Release),
      r ∈ loadAvailableFilter installed rels → r ∈ rels) := by
  constructor
  · intro fuel api rels r hfetch hmem
    unfold FetchAllReleases at hfetch
    cases hpages : fetchPages api fuel 1 [] 0 with
    | none => rw [hpages] at hfetch; cases hfetch
    | some res =>
      rw [hpages] at hfetch
      cases res with
      | error e => cases hfetch
      | ok p =>
        obtain ⟨all, n⟩ := p
        have hrels : filterReleases all = rels := by
          simpa using hfetch
        rw [← hrels] at hmem
        have hand := (List.mem_filter.mp hmem).2
        have h2 : r.draft = false ∧ (PickLinuxTarball r.assets).isSome = true := by
          simpa [Bool.and_eq_true] using hand
        exact h2.1
  · intro installed rels r hmem
    exact (List.mem_filter.mp hmem).1

/-- Witness for C5: a concrete two-release catalog containing a draft;
the fetched output contains only the non-draft release, and it indeed
has `draft = false`; the UI filter's output is a subset. -/
theorem drafts_never_surfaced_witness :
    (⟨"GE-Proton9-5", "GE-Proton9-5", false,
        [⟨"GE-Proton9-5.tar.gz", "u", 100, "application/gzip"⟩], false, ""⟩ : Release).draft
      = false
    ∧ (⟨"GE-Proton9-5", "GE-Proton9-5", false,
        [⟨"GE-Proton9-5.tar.gz", "u", 100, "application/gzip"⟩], false, ""⟩ : Release)
      ∈ [(⟨"GE-Proton9-5", "GE-Proton9-5", false,
        [⟨"GE-Proton9-5.tar.gz", "u", 100, "application/gzip"⟩], false, ""⟩ : Release)] := by
  refine ⟨drafts_never_surfaced.1 1
    (pagedApi [⟨"GE-Proton9-6", "d", false, [⟨"GE-Proton9-6.tar.gz", "u", 9, "t"⟩], true, ""⟩,
       ⟨"GE-Proton9-5", "GE-Proton9-5", false,
        [⟨"GE-Proton9-5.tar.gz", "u", 100, "application/gzip"⟩], false, ""⟩])
    _ _ rfl (by decide), ?_⟩
  exact drafts_never_surfaced.2 ["ge-proton9-7"] _ _ (by decide)

/-! ## Claim C7: HTTP status handling of the catalog fetch -/

theorem length_dropWhile_le (p : α → Bool) (l : List α) :
    (l.dropWhile p).length ≤ l.length := by
  induction l with
  | nil => simp
  | cons a rest ih =>
    rw [List.dropWhile_cons]
    split
    · exact le_trans ih (by simp)
    · simp

theorem length_trimSpaceBytes_le (l : List Nat) :
    (trimSpaceBytes l).length ≤ l.length := by
  unfold trimSpaceBytes
  rw [List.length_reverse]
  calc ((l.dropWhile isSpaceByte).reverse.dropWhile isSpaceByte).length
      ≤ (l.dropWhile isSpaceByte).reverse.length := length_dropWhile_le ..
    _ = (l.dropWhile isSpaceByte).length := List.length_reverse _
    _ ≤ l.length := length_dropWhile_le ..

/-- Claim C7: a 403 page response yields the distinguished rate-limit
error whose message advises setting `GITHUB_TOKEN`; any other non-2xx
response yields an error carrying the status line and at most 4096 bytes
of the (whitespace-trimmed) response body; and a page-level error makes
the pagination loop return that error — and hence no releases. -/
theorem fetch_http_error_handling :
    (∀ r : GhResponse, r.statusCode = 403 →
      handlePage r = .error (.rateLimited rateLimitMsg)
        ∧ strContains rateLimitMsg "GITHUB_TOKEN" = true)
  ∧ (∀ r : GhResponse, r.statusCode ≠ 403 → (r.statusCode < 200 ∨ 300 ≤ r.statusCode) →
      handlePage r = .error (.apiError r.status (trimSpaceBytes (r.body.take 4096)))
        ∧ (trimSpaceBytes (r.body.take 4096)).length ≤ 4096)
  ∧ (∀ (api : Nat → GhResponse) (fuel page : Nat) (all : List Release) (reqs : Nat)
        (e : GhError), handlePage (api page) = .error e →
      fetchPages api (fuel + 1) page all reqs = some (.error e)) := by
  refine ⟨?_, ?_, ?_⟩
  · intro r h
    refine ⟨?_, by decide⟩
    unfold handlePage
    rw [if_pos (by simp [h])]
  · intro r h403 hbad
    refine ⟨?_, ?_⟩
    · unfold handlePage
      rw [if_neg (by simpa using h403), if_pos hbad]
    · exact le_trans (length_trimSpaceBytes_le _) (List.length_take_le 4096 r.body)
  · intro api fuel page all reqs e herr
    simp [fetchPages, herr]

/-- Witness for C7: concrete 403 and 500 responses, and a loop run over
an always-403 API that returns the rate-limit error. -/
theorem fetch_http_error_handling_witness :
    (handlePage ⟨403, "403 Forbidden", [], none⟩ = .error (.rateLimited rateLimitMsg))
  ∧ (handlePage ⟨500, "500 Internal Server Error", [32, 104, 105], none⟩
      = .error (.apiError "500 Internal Server Error"
          (trimSpaceBytes ([32, 104, 105].take 4096))))
  ∧ (fetchPages (fun _ => ⟨403, "403 Forbidden", [], none⟩) 3 1 [] 0
      = some (.error (.rateLimited rateLimitMsg))) :=
  ⟨(fetch_http_error_handling.1 ⟨403, "403 Forbidden", [], none⟩ rfl).1,
   (fetch_http_error_handling.2.1 ⟨500, "500 Internal Server Error", [32, 104, 105], none⟩
      (by decide) (by decide)).1,
   fetch_http_error_handling.2.2 _ 2 1 [] 0 _
     (fetch_http_error_handling.1 ⟨403, "403 Forbidden", [], none⟩ rfl).1⟩

/-! ## Claim C6: progress monotonicity and final fraction -/

theorem runningTotals_head_ge (acc : Nat) (cs : List Nat) (y : Nat)
    (h : (runningTotals acc cs).head? = some y) : acc ≤ y := by
  cases cs with
  | nil => simp [runningTotals] at h
  | cons c cs =>
    simp only [runningTotals, List.head?_cons, Option.some.injEq] at h
    omega

theorem runningTotals_chain (cs : List Nat) :
    ∀ acc, List.Chain' (· ≤ ·) (runningTotals acc cs) := by
  induction cs with
  | nil => intro acc; simp [runningTotals]
  | cons c cs ih =>
    intro acc
    rw [runningTotals, List.chain'_cons']
    exact ⟨fun y hy => le_trans (by omega) (runningTotals_head_ge (acc + c) cs y hy),
      ih (acc + c)⟩

theorem runningTotals_getLast (cs : List Nat) :
    ∀ acc, cs ≠ [] → (runningTotals acc cs).getLast? = some (acc + cs.sum) := by
  induction cs with
  | nil => intro acc h; cases h rfl
  | cons c cs ih =>
    intro acc _
    cases hcs : cs with
    | nil => simp [runningTotals, hcs]
    | cons d ds =>
      subst hcs
      rw [runningTotals, runningTotals, List.getLast?_cons_cons]
      rw [← runningTotals]
      rw [ih (acc + c) (by simp)]
      simp [List.sum_cons, Nat.add_assoc]

/-- Claim C6: when the expected total length (transport length, with the
catalog size hint as fallback) is positive, the successive fractions the
progress tee reports are monotonically non-decreasing, and once the
consumed bytes sum to exactly that expected length, the final reported
fraction is exactly 1. -/
theorem progress_monotone_and_final (contentLength sizeHint : Int) (chunks : List Nat)
    (hpos : 0 < effectiveLen contentLength sizeHint) :
    List.Chain' (· ≤ ·) (progressReports (effectiveLen contentLength sizeHint) chunks)
  ∧ ((chunks.sum : Int) = effectiveLen contentLength sizeHint →
      (progressReports (effectiveLen contentLength sizeHint) chunks).getLast? = some 1) := by
  have hQ : (0 : ℚ) < (Int.cast (effectiveLen contentLength sizeHint) : ℚ) := by
    exact_mod_cast hpos
  constructor
  · unfold progressReports
    rw [if_pos hpos, List.chain'_map]
    exact (runningTotals_chain chunks 0).imp
      (fun a b hab => (div_le_div_iff_of_pos_right hQ).mpr (by exact_mod_cast hab))
  · intro hsum
    have hne : chunks ≠ [] := by
      intro hnil
      rw [hnil] at hsum
      simp at hsum
      omega
    unfold progressReports
    rw [if_pos hpos, List.getLast?_map, runningTotals_getLast chunks 0 hne]
    have hcast : (Nat.cast (0 + chunks.sum) : ℚ)
        = (Int.cast (effectiveLen contentLength sizeHint) : ℚ) := by
      rw [Nat.zero_add, ← hsum, Int.cast_natCast]
    rw [Option.map_some', hcast, div_self (ne_of_gt hQ)]

/-- Witness for C6: a 10-byte stream delivered in chunks of 4 and 6
bytes reports non-decreasing fractions ending at exactly 1. -/
theorem progress_monotone_and_final_witness :
    List.Chain' (· ≤ ·) (progressReports (effectiveLen 10 0) [4, 6])
  ∧ (progressReports (effectiveLen 10 0) [4, 6]).getLast? = some 1 :=
  ⟨(progress_monotone_and_final 10 0 [4, 6] (by decide)).1,
   (progress_monotone_and_final 10 0 [4, 6] (by decide)).2 (by decide)⟩

/-! ## Claim C9: installed versions are hidden from the available list -/

/-- Claim C9: after a refresh, the available list is exactly the fetched
catalog minus the releases whose tag name equals, case-insensitively,
an installed folder name — in particular no such release appears in it. -/
theorem available_excludes_installed (installed : List String) (rels : List Release) :
    (∀ r ∈ loadAvailableFilter installed rels, ∀ n ∈ installed,
        strToLower r.tagName ≠ strToLower n)
  ∧ loadAvailableFilter installed rels
      = rels.filter (fun r => decide (∀ n ∈ installed, strToLower r.tagName ≠ strToLower n)) := by
  have hpt : ∀ r : Release,
      (!((installed.map strToLower).contains (strToLower r.tagName)))
        = decide (∀ n ∈ installed, strToLower r.tagName ≠ strToLower n) := by
    intro r
    have hc : ((installed.map strToLower).contains (strToLower r.tagName) = true)
        ↔ strToLower r.tagName ∈ installed.map strToLower := List.elem_iff
    rw [List.mem_map] at hc
    by_cases hP : ∀ n ∈ installed, strToLower r.tagName ≠ strToLower n
    · have hnc : (installed.map strToLower).contains (strToLower r.tagName) = false := by
        rw [← Bool.not_eq_true, hc]
        rintro ⟨n, hn, hx⟩
        exact hP n hn hx.symm
      rw [hnc, decide_eq_true hP]
      rfl
    · have hyc : (installed.map strToLower).contains (strToLower r.tagName) = true := by
        rw [hc]
        push_neg at hP
        obtain ⟨n, hn, hx⟩ := hP
        exact ⟨n, hn, hx.symm⟩
      rw [hyc, decide_eq_false hP]
      rfl
  constructor
  · intro r hr n hn
    have hp := List.of_mem_filter hr
    rw [hpt r] at hp
    exact (of_decide_eq_true hp) n hn
  · exact List.filter_congr (fun r _ => hpt r)

/-! ## Claim C2 machinery: `lget` and `lswap` -/

theorem lget_eq_getElem {α : Type} [Inhabited α] (l : List α) (i : Nat) (h : i < l.length) :
    lget l i = l[i] := by
  unfold lget
  rw [List.getD_eq_getElem?_getD, List.getElem?_eq_getElem h]
  rfl

theorem lget_mem {α : Type} [Inhabited α] (l : List α) (i : Nat) (h : i < l.length) :
    lget l i ∈ l := by
  rw [lget_eq_getElem l i h]
  exact List.getElem_mem h

theorem length_lswap {α : Type} [Inhabited α] (l : List α) (i j : Nat) :
    (lswap l i j).length = l.length := by
  unfold lswap
  split <;> simp

theorem mem_of_mem_set {α : Type} (l : List α) (n : Nat) (a : α) :
    ∀ x ∈ l.set n a, x = a ∨ x ∈ l := by
  induction l generalizing n with
  | nil => intro x hx; simp at hx
  | cons b bs ih =>
    intro x hx
    cases n with
    | zero =>
      rcases List.mem_cons.mp hx with h | h
      · exact Or.inl h
      · exact Or.inr (List.mem_cons_of_mem _ h)
    | succ n =>
      rcases List.mem_cons.mp hx with h | h
      · exact Or.inr (h ▸ List.mem_cons_self _ _)
      · rcases ih n x h with h' | h'
        · exact Or.inl h'
        · exact Or.inr (List.mem_cons_of_mem _ h')

theorem lswap_subset {α : Type} [Inhabited α] (l : List α) (i j : Nat) :
    ∀ x ∈ lswap l i j, x ∈ l := by
  intro x hx
  unfold lswap at hx
  split at hx
  case isTrue h =>
    rcases mem_of_mem_set _ _ _ x hx with h1 | h1
    · exact h1 ▸ lget_mem l i h.1
    · rcases mem_of_mem_set _ _ _ x h1 with h2 | h2
      · exact h2 ▸ lget_mem l j h.2
      · exact h2
  case isFalse _ => exact hx

theorem lget_lswap_ne {α : Type} [Inhabited α] (l : List α) (i j k : Nat)
    (hki : k ≠ i) (hkj : k ≠ j) : lget (lswap l i j) k = lget l k := by
  unfold lswap
  split
  · unfold lget
    rw [List.getD_eq_getElem?_getD, List.getElem?_set_ne (Ne.symm hkj),
      List.getElem?_set_ne (Ne.symm hki), ← List.getD_eq_getElem?_getD]
  · rfl

theorem lget_lswap_right {α : Type} [Inhabited α] (l : List α) (i j : Nat)
    (hi : i < l.length) (hj : j < l.length) :
    lget (lswap l i j) j = lget l i := by
  have h1 : (lswap l i j)[j]? = some (lget l i) := by
    unfold lswap
    rw [if_pos ⟨hi, hj⟩]
    exact List.getElem?_set_self (by simpa using hj)
  unfold lget
  rw [List.getD_eq_getElem?_getD, h1]
  rfl

theorem lget_lswap_left {α : Type} [Inhabited α] (l : List α) (i j : Nat)
    (hi : i < l.length) (hj : j < l.length) (hij : i ≠ j) :
    lget (lswap l i j) i = lget l j := by
  have h1 : (lswap l i j)[i]? = some (lget l j) := by
    unfold lswap
    rw [if_pos ⟨hi, hj⟩]
    rw [List.getElem?_set_ne (Ne.symm hij)]
    exact List.getElem?_set_self hi
  unfold lget
  rw [List.getD_eq_getElem?_getD, h1]
  rfl

theorem lswap_origin {α : Type} [Inhabited α] (l : List α) (i j k : Nat) :
    ∃ k', (k' = k ∨ k' = i ∨ k' = j) ∧ lget (lswap l i j) k = lget l k' := by
  by_cases hb : i < l.length ∧ j < l.length
  · by_cases hkj : k = j
    · subst hkj
      exact ⟨i, Or.inr (Or.inl rfl), lget_lswap_right l i k hb.1 hb.2⟩
    · by_cases hki : k = i
      · subst hki
        exact ⟨j, Or.inr (Or.inr rfl), lget_lswap_left l k j hb.1 hb.2 hkj⟩
      · exact ⟨k, Or.inl rfl, lget_lswap_ne l i j k hki hkj⟩
  · refine ⟨k, Or.inl rfl, ?_⟩
    unfold lswap
    rw [if_neg hb]

/-! ## Claim C2 machinery: every sort subroutine preserves length and
only rearranges existing elements -/

theorem insertionBubble_conserve {α : Type} [Inhabited α] (cmp : α → α → Int) :
    ∀ (fuel : Nat) (data : List α) (a j : Nat),
      (insertionBubble cmp fuel data a j).length = data.length
      ∧ ∀ x ∈ insertionBubble cmp fuel data a j, x ∈ data := by
  intro fuel
  induction fuel with
  | zero => exact fun data a j => ⟨rfl, fun x hx => hx⟩
  | succ fuel ih =>
    intro data a j
    rw [insertionBubble]
    split
    · obtain ⟨h1, h2⟩ := ih (lswap data j (j-1)) a (j-1)
      exact ⟨h1.trans (length_lswap ..), fun x hx => lswap_subset _ _ _ x (h2 x hx)⟩
    · exact ⟨rfl, fun x hx => hx⟩

theorem insertionLoop_conserve {α : Type} [Inhabited α] (cmp : α → α → Int) :
    ∀ (fuel : Nat) (data : List α) (a i b : Nat),
      (insertionLoop cmp fuel data a i b).length = data.length
      ∧ ∀ x ∈ insertionLoop cmp fuel data a i b, x ∈ data := by
  intro fuel
  induction fuel with
  | zero => exact fun data a i b => ⟨rfl, fun x hx => hx⟩
  | succ fuel ih =>
    intro data a i b
    rw [insertionLoop]
    split
    · obtain ⟨h1, h2⟩ := ih (insertionBubble cmp i data a i) a (i+1) b
      obtain ⟨h3, h4⟩ := insertionBubble_conserve cmp i data a i
      exact ⟨h1.trans h3, fun x hx => h4 x (h2 x hx)⟩
    · exact ⟨rfl, fun x hx => hx⟩

theorem insertionSortGo_conserve {α : Type} [Inhabited α] (cmp : α → α → Int)
    (data : List α) (a b : Nat) :
    (insertionSortGo cmp data a b).length = data.length
    ∧ ∀ x ∈ insertionSortGo cmp data a b, x ∈ data :=
  insertionLoop_conserve cmp b data a (a+1) b

theorem siftDownGo_conserve {α : Type} [Inhabited α] (cmp : α → α → Int) :
    ∀ (fuel : Nat) (data : List α) (root hi first : Nat),
      (siftDownGo cmp fuel data root hi first).length = data.length
      ∧ ∀ x ∈ siftDownGo cmp fuel data root hi first, x ∈ data := by
  intro fuel
  induction fuel with
  | zero => exact fun data root hi first => ⟨rfl, fun x hx => hx⟩
  | succ fuel ih =>
    intro data root hi first
    simp only [siftDownGo]
    split
    · exact ⟨rfl, fun x hx => hx⟩
    · split <;> split
      · exact ⟨rfl, fun x hx => hx⟩
      · obtain ⟨h1, h2⟩ := ih (lswap data _ _) _ hi first
        exact ⟨h1.trans (length_lswap ..), fun x hx => lswap_subset _ _ _ x (h2 x hx)⟩
      · exact ⟨rfl, fun x hx => hx⟩
      · obtain ⟨h1, h2⟩ := ih (lswap data _ _) _ hi first
        exact ⟨h1.trans (length_lswap ..), fun x hx => lswap_subset _ _ _ x (h2 x hx)⟩

theorem heapBuildGo_conserve {α : Type} [Inhabited α] (cmp : α → α → Int) :
    ∀ (k : Nat) (data : List α) (hi first : Nat),
      (heapBuildGo cmp k data hi first).length = data.length
      ∧ ∀ x ∈ heapBuildGo cmp k data hi first, x ∈ data := by
  intro k
  induction k with
  | zero => exact fun data hi first => ⟨rfl, fun x hx => hx⟩
  | succ k ih =>
    intro data hi first
    rw [heapBuildGo]
    obtain ⟨h1, h2⟩ := ih (siftDownGo cmp hi data k hi first) hi first
    obtain ⟨h3, h4⟩ := siftDownGo_conserve cmp hi data k hi first
    exact ⟨h1.trans h3, fun x hx => h4 x (h2 x hx)⟩

theorem heapPopGo_conserve {α : Type} [Inhabited α] (cmp : α → α → Int) :
    ∀ (k : Nat) (data : List α) (first : Nat),
      (heapPopGo cmp k data first).length = data.length
      ∧ ∀ x ∈ heapPopGo cmp k data first, x ∈ data := by
  intro k
  induction k with
  | zero => exact fun data first => ⟨rfl, fun x hx => hx⟩
  | succ k ih =>
    intro data first
    rw [heapPopGo]
    obtain ⟨h1, h2⟩ := ih (siftDownGo cmp k (lswap data first (first + k)) 0 k first) first
    obtain ⟨h3, h4⟩ := siftDownGo_conserve cmp k (lswap data first (first + k)) 0 k first
    refine ⟨(h1.trans h3).trans (length_lswap ..), fun x hx => ?_⟩
    exact lswap_subset _ _ _ x (h4 x (h2 x hx))

theorem heapSortGo_conserve {α : Type} [Inhabited α] (cmp : α → α → Int)
    (data : List α) (a b : Nat) :
    (heapSortGo cmp data a b).length = data.length
    ∧ ∀ x ∈ heapSortGo cmp data a b, x ∈ data := by
  unfold heapSortGo
  obtain ⟨h1, h2⟩ := heapPopGo_conserve cmp (b - a)
    (heapBuildGo cmp ((b - a - 1) / 2 + 1) data (b - a) a) a
  obtain ⟨h3, h4⟩ := heapBuildGo_conserve cmp ((b - a - 1) / 2 + 1) data (b - a) a
  exact ⟨h1.trans h3, fun x hx => h4 x (h2 x hx)⟩

theorem reverseRangeGo_conserve {α : Type} [Inhabited α] :
    ∀ (fuel : Nat) (data : List α) (i j : Nat),
      (reverseRangeGo fuel data i j).length = data.length
      ∧ ∀ x ∈ reverseRangeGo fuel data i j, x ∈ data := by
  intro fuel
  induction fuel with
  | zero => exact fun data i j => ⟨rfl, fun x hx => hx⟩
  | succ fuel ih =>
    intro data i j
    rw [reverseRangeGo]
    split
    · obtain ⟨h1, h2⟩ := ih (lswap data i j) (i+1) (j-1)
      exact ⟨h1.trans (length_lswap ..), fun x hx => lswap_subset _ _ _ x (h2 x hx)⟩
    · exact ⟨rfl, fun x hx => hx⟩

theorem breakIterGo_conserve {α : Type} [Inhabited α] :
    ∀ (k : Nat) (data : List α) (i random modulus idx a length : Nat),
      (breakIterGo k data i random modulus idx a length).length = data.length
      ∧ ∀ x ∈ breakIterGo k data i random modulus idx a length, x ∈ data := by
  intro k
  induction k with
  | zero => exact fun data i random modulus idx a length => ⟨rfl, fun x hx => hx⟩
  | succ k ih =>
    intro data i random modulus idx a length
    simp only [breakIterGo]
    obtain ⟨h1, h2⟩ := ih (lswap data _ _) (i+1) _ modulus idx a length
    exact ⟨h1.trans (length_lswap ..), fun x hx => lswap_subset _ _ _ x (h2 x hx)⟩

theorem breakPatternsGo_conserve {α : Type} [Inhabited α] (data : List α) (a b : Nat) :
    (breakPatternsGo data a b).length = data.length
    ∧ ∀ x ∈ breakPatternsGo data a b, x ∈ data := by
  simp only [breakPatternsGo]
  split
  · exact breakIterGo_conserve 3 data 0 _ _ _ a (b - a)
  · exact ⟨rfl, fun x hx => hx⟩

theorem partitionLoopGo_conserve {α : Type} [Inhabited α] (cmp : α → α → Int) :
    ∀ (fuel : Nat) (data : List α) (a i j : Nat),
      (partitionLoopGo cmp fuel data a i j).1.length = data.length
      ∧ ∀ x ∈ (partitionLoopGo cmp fuel data a i j).1, x ∈ data := by
  intro fuel
  induction fuel with
  | zero =>
    intro data a i j
    exact ⟨length_lswap .., fun x hx => lswap_subset _ _ _ x hx⟩
  | succ fuel ih =>
    intro data a i j
    simp only [partitionLoopGo]
    split
    · exact ⟨length_lswap .., fun x hx => lswap_subset _ _ _ x hx⟩
    · obtain ⟨h1, h2⟩ := ih (lswap data _ _) a _ _
      exact ⟨h1.trans (length_lswap ..), fun x hx => lswap_subset _ _ _ x (h2 x hx)⟩

theorem partitionGo_conserve {α : Type} [Inhabited α] (cmp : α → α → Int)
    (data : List α) (a b pivot : Nat) :
    (partitionGo cmp data a b pivot).1.length = data.length
    ∧ ∀ x ∈ (partitionGo cmp data a b pivot).1, x ∈ data := by
  simp only [partitionGo]
  split
  · refine ⟨(length_lswap ..).trans (length_lswap ..), fun x hx => ?_⟩
    exact lswap_subset _ _ _ x (lswap_subset _ _ _ x hx)
  · obtain ⟨h1, h2⟩ := partitionLoopGo_conserve cmp b (lswap (lswap data a pivot) _ _) a _ _
    refine ⟨(h1.trans (length_lswap ..)).trans (length_lswap ..), fun x hx => ?_⟩
    exact lswap_subset _ _ _ x (lswap_subset _ _ _ x (h2 x hx))

theorem partitionEqualLoopGo_conserve {α : Type} [Inhabited α] (cmp : α → α → Int) :
    ∀ (fuel : Nat) (data : List α) (a i j : Nat),
      (partitionEqualLoopGo cmp fuel data a i j).1.length = data.length
      ∧ ∀ x ∈ (partitionEqualLoopGo cmp fuel data a i j).1, x ∈ data := by
  intro fuel
  induction fuel with
  | zero => exact fun data a i j => ⟨rfl, fun x hx => hx⟩
  | succ fuel ih =>
    intro data a i j
    simp only [partitionEqualLoopGo]
    split
    · exact ⟨rfl, fun x hx => hx⟩
    · obtain ⟨h1, h2⟩ := ih (lswap data _ _) a _ _
      exact ⟨h1.trans (length_lswap ..), fun x hx => lswap_subset _ _ _ x (h2 x hx)⟩

theorem partitionEqualGo_conserve {α : Type} [Inhabited α] (cmp : α → α → Int)
    (data : List α) (a b pivot : Nat) :
    (partitionEqualGo cmp data a b pivot).1.length = data.length
    ∧ ∀ x ∈ (partitionEqualGo cmp data a b pivot).1, x ∈ data := by
  unfold partitionEqualGo
  obtain ⟨h1, h2⟩ := partitionEqualLoopGo_conserve cmp b (lswap data a pivot) a (a+1) (b-1)
  exact ⟨h1.trans (length_lswap ..), fun x hx => lswap_subset _ _ _ x (h2 x hx)⟩

theorem shiftTailLeftGo_conserve {α : Type} [Inhabited α] (cmp : α → α → Int) :
    ∀ (fuel : Nat) (data : List α) (j : Nat),
      (shiftTailLeftGo cmp fuel data j).length = data.length
      ∧ ∀ x ∈ shiftTailLeftGo cmp fuel data j, x ∈ data := by
  intro fuel
  induction fuel with
  | zero => exact fun data j => ⟨rfl, fun x hx => hx⟩
  | succ fuel ih =>
    intro data j
    rw [shiftTailLeftGo]
    split
    · obtain ⟨h1, h2⟩ := ih (lswap data j (j-1)) (j-1)
      exact ⟨h1.trans (length_lswap ..), fun x hx => lswap_subset _ _ _ x (h2 x hx)⟩
    · exact ⟨rfl, fun x hx => hx⟩

theorem shiftTailRightGo_conserve {α : Type} [Inhabited α] (cmp : α → α → Int) :
    ∀ (fuel : Nat) (data : List α) (j b : Nat),
      (shiftTailRightGo cmp fuel data j b).length = data.length
      ∧ ∀ x ∈ shiftTailRightGo cmp fuel data j b, x ∈ data := by
  intro fuel
  induction fuel with
  | zero => exact fun data j b => ⟨rfl, fun x hx => hx⟩
  | succ fuel ih =>
    intro data j b
    rw [shiftTailRightGo]
    split
    · obtain ⟨h1, h2⟩ := ih (lswap data j (j-1)) (j+1) b
      exact ⟨h1.trans (length_lswap ..), fun x hx => lswap_subset _ _ _ x (h2 x hx)⟩
    · exact ⟨rfl, fun x hx => hx⟩

theorem partInsSortLoopGo_conserve {α : Type} [Inhabited α] (cmp : α → α → Int) :
    ∀ (k : Nat) (data : List α) (a b i : Nat),
      (partInsSortLoopGo cmp k data a b i).1.length = data.length
      ∧ ∀ x ∈ (partInsSortLoopGo cmp k data a b i).1, x ∈ data := by
  intro k
  induction k with
  | zero => exact fun data a b i => ⟨rfl, fun x hx => hx⟩
  | succ k ih =>
    intro data a b i
    simp only [partInsSortLoopGo]
    split
    · exact ⟨rfl, fun x hx => hx⟩
    · split
      · exact ⟨rfl, fun x hx => hx⟩
      · set d1 := lswap data (scanSortedGo cmp b data i b) (scanSortedGo cmp b data i b - 1)
          with hd1
        set d2 := if 2 ≤ scanSortedGo cmp b data i b - a then
            shiftTailLeftGo cmp (scanSortedGo cmp b data i b) d1
              (scanSortedGo cmp b data i b - 1)
          else d1 with hd2
        set d3 := if 2 ≤ b - scanSortedGo cmp b data i b then
            shiftTailRightGo cmp b d2 (scanSortedGo cmp b data i b + 1) b
          else d2 with hd3
        obtain ⟨h1, h2⟩ := ih d3 a b (scanSortedGo cmp b data i b)
        have hc3 : d3.length = d2.length ∧ ∀ x ∈ d3, x ∈ d2 := by
          rw [hd3]
          split
          · exact shiftTailRightGo_conserve cmp b d2 _ b
          · exact ⟨rfl, fun x hx => hx⟩
        have hc2 : d2.length = d1.length ∧ ∀ x ∈ d2, x ∈ d1 := by
          rw [hd2]
          split
          · exact shiftTailLeftGo_conserve cmp _ d1 _
          · exact ⟨rfl, fun x hx => hx⟩
        refine ⟨((h1.trans hc3.1).trans hc2.1).trans (length_lswap ..), fun x hx => ?_⟩
        exact lswap_subset _ _ _ x (hc2.2 x (hc3.2 x (h2 x hx)))

theorem partInsSortGo_conserve {α : Type} [Inhabited α] (cmp : α → α → Int)
    (data : List α) (a b : Nat) :
    (partInsSortGo cmp data a b).1.length = data.length
    ∧ ∀ x ∈ (partInsSortGo cmp data a b).1, x ∈ data :=
  partInsSortLoopGo_conserve cmp 5 data a b (a+1)

theorem breakStageGo_conserve {α : Type} [Inhabited α] (data : List α) (a b : Nat) (wb : Bool) :
    (breakStageGo data a b wb).length = data.length
    ∧ ∀ x ∈ breakStageGo data a b wb, x ∈ data := by
  unfold breakStageGo
  split
  · exact breakPatternsGo_conserve data a b
  · exact ⟨rfl, fun x hx => hx⟩

theorem reverseStageGo_conserve {α : Type} [Inhabited α] (cmp : α → α → Int)
    (data1 : List α) (a b : Nat) :
    (reverseStageGo cmp data1 a b).length = data1.length
    ∧ ∀ x ∈ reverseStageGo cmp data1 a b, x ∈ data1 := by
  unfold reverseStageGo
  split
  · exact reverseRangeGo_conserve b data1 a (b-1)
  · exact ⟨rfl, fun x hx => hx⟩

theorem partInsStageGo_conserve {α : Type} [Inhabited α] (cmp : α → α → Int)
    (data1 : List α) (a b : Nat) (wb wp : Bool) :
    (partInsStageGo cmp data1 a b wb wp).1.length = data1.length
    ∧ ∀ x ∈ (partInsStageGo cmp data1 a b wb wp).1, x ∈ data1 := by
  unfold partInsStageGo
  obtain ⟨h1, h2⟩ := reverseStageGo_conserve cmp data1 a b
  split
  · obtain ⟨h3, h4⟩ := partInsSortGo_conserve cmp (reverseStageGo cmp data1 a b) a b
    exact ⟨h3.trans h1, fun x hx => h2 x (h4 x hx)⟩
  · exact ⟨h1, h2⟩

theorem pdqsortLoopGo_conserve {α : Type} [Inhabited α] (cmp : α → α → Int) :
    ∀ (fuel : Nat) (data : List α) (a b limit : Nat) (wb wp : Bool),
      (pdqsortLoopGo cmp fuel data a b limit wb wp).length = data.length
      ∧ ∀ x ∈ pdqsortLoopGo cmp fuel data a b limit wb wp, x ∈ data := by
  intro fuel
  induction fuel with
  | zero => exact fun data a b limit wb wp => ⟨rfl, fun x hx => hx⟩
  | succ fuel ih =>
    intro data a b limit wb wp
    rw [pdqsortLoopGo]
    dsimp only
    split
    · exact insertionSortGo_conserve cmp data a b
    · split
      · exact heapSortGo_conserve cmp data a b
      · have hc1 := breakStageGo_conserve data a b wb
        have hc3 := partInsStageGo_conserve cmp (breakStageGo data a b wb) a b wb wp
        have hcombined :
            (partInsStageGo cmp (breakStageGo data a b wb) a b wb wp).1.length = data.length
            ∧ ∀ x ∈ (partInsStageGo cmp (breakStageGo data a b wb) a b wb wp).1, x ∈ data :=
          ⟨hc3.1.trans hc1.1, fun x hx => hc1.2 x (hc3.2 x hx)⟩
        split
        · exact hcombined
        · split
          · obtain ⟨h1, h2⟩ := ih
              (partitionEqualGo cmp (partInsStageGo cmp (breakStageGo data a b wb) a b wb wp).1
                a b (pivotStageGo cmp (breakStageGo data a b wb) a b)).1
              (partitionEqualGo cmp (partInsStageGo cmp (breakStageGo data a b wb) a b wb wp).1
                a b (pivotStageGo cmp (breakStageGo data a b wb) a b)).2
              b (limitStageGo limit wb) wb wp
            obtain ⟨h3, h4⟩ := partitionEqualGo_conserve cmp
              (partInsStageGo cmp (breakStageGo data a b wb) a b wb wp).1 a b
              (pivotStageGo cmp (breakStageGo data a b wb) a b)
            exact ⟨(h1.trans h3).trans hcombined.1,
              fun x hx => hcombined.2 x (h4 x (h2 x hx))⟩
          · obtain ⟨h5, h6⟩ := partitionGo_conserve cmp
              (partInsStageGo cmp (breakStageGo data a b wb) a b wb wp).1 a b
              (pivotStageGo cmp (breakStageGo data a b wb) a b)
            split
            · obtain ⟨h1, h2⟩ := ih
                (partitionGo cmp (partInsStageGo cmp (breakStageGo data a b wb) a b wb wp).1
                  a b (pivotStageGo cmp (breakStageGo data a b wb) a b)).1
                a
                (partitionGo cmp (partInsStageGo cmp (breakStageGo data a b wb) a b wb wp).1
                  a b (pivotStageGo cmp (breakStageGo data a b wb) a b)).2.1
                (limitStageGo limit wb) true true
              obtain ⟨h3, h4⟩ := ih
                (pdqsortLoopGo cmp fuel
                  (partitionGo cmp (partInsStageGo cmp (breakStageGo data a b wb) a b wb wp).1
                    a b (pivotStageGo cmp (breakStageGo data a b wb) a b)).1
                  a
                  (partitionGo cmp (partInsStageGo cmp (breakStageGo data a b wb) a b wb wp).1
                    a b (pivotStageGo cmp (breakStageGo data a b wb) a b)).2.1
                  (limitStageGo limit wb) true true)
                ((partitionGo cmp (partInsStageGo cmp (breakStageGo data a b wb) a b wb wp).1
                  a b (pivotStageGo cmp (breakStageGo data a b wb) a b)).2.1 + 1)
                b (limitStageGo limit wb)
                (decide ((b - a) / 8 ≤
                  min ((partitionGo cmp
                      (partInsStageGo cmp (breakStageGo data a b wb) a b wb wp).1
                      a b (pivotStageGo cmp (breakStageGo data a b wb) a b)).2.1 - a)
                    (b - (partitionGo cmp
                      (partInsStageGo cmp (breakStageGo data a b wb) a b wb wp).1
                      a b (pivotStageGo cmp (breakStageGo data a b wb) a b)).2.1)))
                (partitionGo cmp (partInsStageGo cmp (breakStageGo data a b wb) a b wb wp).1
                  a b (pivotStageGo cmp (breakStageGo data a b wb) a b)).2.2
              exact ⟨((h3.trans h1).trans h5).trans hcombined.1,
                fun x hx => hcombined.2 x (h6 x (h2 x (h4 x hx)))⟩
            · obtain ⟨h1, h2⟩ := ih
                (partitionGo cmp (partInsStageGo cmp (breakStageGo data a b wb) a b wb wp).1
                  a b (pivotStageGo cmp (breakStageGo data a b wb) a b)).1
                ((partitionGo cmp (partInsStageGo cmp (breakStageGo data a b wb) a b wb wp).1
                  a b (pivotStageGo cmp (breakStageGo data a b wb) a b)).2.1 + 1)
                b (limitStageGo limit wb) true true
              obtain ⟨h3, h4⟩ := ih
                (pdqsortLoopGo cmp fuel
                  (partitionGo cmp (partInsStageGo cmp (breakStageGo data a b wb) a b wb wp).1
                    a b (pivotStageGo cmp (breakStageGo data a b wb) a b)).1
                  ((partitionGo cmp (partInsStageGo cmp (breakStageGo data a b wb) a b wb wp).1
                    a b (pivotStageGo cmp (breakStageGo data a b wb) a b)).2.1 + 1)
                  b (limitStageGo limit wb) true true)
                a
                (partitionGo cmp (partInsStageGo cmp (breakStageGo data a b wb) a b wb wp).1
                  a b (pivotStageGo cmp (breakStageGo data a b wb) a b)).2.1
                (limitStageGo limit wb)
                (decide ((b - a) / 8 ≤
                  min ((partitionGo cmp
                      (partInsStageGo cmp (breakStageGo data a b wb) a b wb wp).1
                      a b (pivotStageGo cmp (breakStageGo data a b wb) a b)).2.1 - a)
                    (b - (partitionGo cmp
                      (partInsStageGo cmp (breakStageGo data a b wb) a b wb wp).1
                      a b (pivotStageGo cmp (breakStageGo data a b wb) a b)).2.1)))
                (partitionGo cmp (partInsStageGo cmp (breakStageGo data a b wb) a b wb wp).1
                  a b (pivotStageGo cmp (breakStageGo data a b wb) a b)).2.2
              exact ⟨((h3.trans h1).trans h5).trans hcombined.1,
                fun x hx => hcombined.2 x (h6 x (h2 x (h4 x hx)))⟩

theorem sortFuncGo_conserve {α : Type} [Inhabited α] (cmp : α → α → Int) (data : List α) :
    (sortFuncGo cmp data).length = data.length
    ∧ ∀ x ∈ sortFuncGo cmp data, x ∈ data :=
  pdqsortLoopGo_conserve cmp (data.length + 1) data 0 data.length (bitsLen data.length) true true

/-! ## Claim C2 machinery: the insertion-sort path (ranges of at most 12)
is stable, and its first element is the first-encountered maximum -/

theorem cmpAssetSize_lt_iff (x y : Asset) : cmpAssetSize x y < 0 ↔ y.size < x.size := by
  unfold cmpAssetSize
  split_ifs with h1 h2 <;> (constructor <;> intro h <;> omega)

theorem insertionBubble_frame_high {α : Type} [Inhabited α] (cmp : α → α → Int) :
    ∀ (fuel : Nat) (data : List α) (j k : Nat), j < k →
      lget (insertionBubble cmp fuel data 0 j) k = lget data k := by
  intro fuel
  induction fuel with
  | zero => intro data j k _; rfl
  | succ fuel ih =>
    intro data j k hjk
    rw [insertionBubble]
    split
    case isTrue h =>
      rw [ih (lswap data j (j-1)) (j-1) k (by omega)]
      exact lget_lswap_ne data j (j-1) k (by omega) (by omega)
    case isFalse _ => rfl

theorem insertionBubble_head_reach :
    ∀ (fuel j : Nat) (data : List Asset), j ≤ fuel → j < data.length →
      (∀ k, k < j → (lget data k).size < (lget data j).size) →
      lget (insertionBubble cmpAssetSize fuel data 0 j) 0 = lget data j := by
  intro fuel
  induction fuel with
  | zero =>
    intro j data hj _ _
    have hj0 : j = 0 := Nat.le_zero.mp hj
    subst hj0
    rfl
  | succ fuel ih =>
    intro j data hj hlen hmax
    rw [insertionBubble]
    by_cases hj0 : 0 < j
    · have hcmp : cmpAssetSize (lget data j) (lget data (j-1)) < 0 :=
        (cmpAssetSize_lt_iff _ _).mpr (hmax (j-1) (by omega))
      rw [if_pos ⟨hj0, hcmp⟩]
      have hget : lget (lswap data j (j-1)) (j-1) = lget data j :=
        lget_lswap_right data j (j-1) hlen (by omega)
      have hm : ∀ k, k < j - 1 →
          (lget (lswap data j (j-1)) k).size < (lget (lswap data j (j-1)) (j-1)).size := by
        intro k hk
        rw [lget_lswap_ne data j (j-1) k (by omega) (by omega), hget]
        exact hmax k (by omega)
      rw [ih (j-1) (lswap data j (j-1)) (by omega) (by rw [length_lswap]; omega) hm]
      exact hget
    · have hj' : j = 0 := by omega
      rw [if_neg (fun hcon => hj0 hcon.1)]
      subst hj'
      rfl

theorem insertionBubble_head_stay :
    ∀ (fuel j : Nat) (data : List Asset), j < data.length →
      (lget data j).size ≤ (lget data 0).size →
      lget (insertionBubble cmpAssetSize fuel data 0 j) 0 = lget data 0 := by
  intro fuel
  induction fuel with
  | zero => intro j data _ _; rfl
  | succ fuel ih =>
    intro j data hlen hle
    rw [insertionBubble]
    split
    case isTrue h =>
      obtain ⟨hj0, hcmp⟩ := h
      have hlt : (lget data (j-1)).size < (lget data j).size :=
        (cmpAssetSize_lt_iff _ _).mp hcmp
      have hj2 : 2 ≤ j := by
        by_contra hc
        have hj1 : j = 1 := by omega
        subst hj1
        norm_num at hlt
        omega
      have hget0 : lget (lswap data j (j-1)) 0 = lget data 0 :=
        lget_lswap_ne data j (j-1) 0 (by omega) (by omega)
      have hm : (lget (lswap data j (j-1)) (j-1)).size
          ≤ (lget (lswap data j (j-1)) 0).size := by
        rw [lget_lswap_right data j (j-1) hlen (by omega), hget0]
        exact hle
      rw [ih (j-1) (lswap data j (j-1)) (by rw [length_lswap]; omega) hm]
      exact hget0
    case isFalse _ => rfl

theorem insertionBubble_origin {α : Type} [Inhabited α] (cmp : α → α → Int) :
    ∀ (fuel : Nat) (data : List α) (j k : Nat), k ≤ j →
      ∃ k', k' ≤ j ∧ lget (insertionBubble cmp fuel data 0 j) k = lget data k' := by
  intro fuel
  induction fuel with
  | zero => intro data j k hk; exact ⟨k, hk, rfl⟩
  | succ fuel ih =>
    intro data j k hk
    rw [insertionBubble]
    split
    case isTrue h =>
      obtain ⟨hj0, _⟩ := h
      by_cases hkj : k ≤ j - 1
      · obtain ⟨k'', hk'', heq⟩ := ih (lswap data j (j-1)) (j-1) k hkj
        obtain ⟨k', hcase, heq'⟩ := lswap_origin data j (j-1) k''
        refine ⟨k', ?_, heq.trans heq'⟩
        rcases hcase with h1 | h1 | h1 <;> omega
      · have hkj' : k = j := by omega
        subst hkj'
        rw [insertionBubble_frame_high cmp fuel (lswap data k (k-1)) (k-1) k (by omega)]
        obtain ⟨k', hcase, heq'⟩ := lswap_origin data k (k-1) k
        refine ⟨k', ?_, heq'⟩
        rcases hcase with h1 | h1 | h1 <;> omega
    case isFalse _ => exact ⟨k, hk, rfl⟩

theorem insertionLoop_head (data : List Asset) :
    ∀ (fuel i : Nat) (st : List Asset),
      st.length = data.length →
      1 ≤ i →
      data.length ≤ i + fuel →
      (∀ k, i ≤ k → lget st k = lget data k) →
      (∀ k, k < i → (lget st k).size ≤ (lget st 0).size) →
      lget (insertionLoop cmpAssetSize fuel st 0 i data.length) 0
        = (data.drop i).foldl (fun best x => if best.size < x.size then x else best)
            (lget st 0) := by
  intro fuel
  induction fuel with
  | zero =>
    intro i st _ _ hfuel _ _
    rw [List.drop_eq_nil_of_le (by omega)]
    rfl
  | succ fuel ih =>
    intro i st hlen h1 hfuel hframe hmax
    rw [insertionLoop]
    by_cases hib : i < data.length
    · rw [if_pos hib]
      have hx : lget st i = lget data i := hframe i (le_refl i)
      have hil : i < st.length := by omega
      have hstep : data.drop i = lget data i :: data.drop (i+1) := by
        rw [lget_eq_getElem data i hib]
        exact List.drop_eq_getElem_cons hib
      have hlen' : (insertionBubble cmpAssetSize i st 0 i).length = data.length := by
        rw [(insertionBubble_conserve cmpAssetSize i st 0 i).1, hlen]
      have hframe' : ∀ k, i+1 ≤ k → lget (insertionBubble cmpAssetSize i st 0 i) k
          = lget data k := by
        intro k hk
        rw [insertionBubble_frame_high cmpAssetSize i st i k (by omega)]
        exact hframe k (by omega)
      have hhead : lget (insertionBubble cmpAssetSize i st 0 i) 0
          = if (lget st 0).size < (lget data i).size then lget data i else lget st 0 := by
        by_cases hgt : (lget st 0).size < (lget st i).size
        · rw [if_pos (hx ▸ hgt)]
          have hm : ∀ k, k < i → (lget st k).size < (lget st i).size :=
            fun k hk => lt_of_le_of_lt (hmax k hk) hgt
          rw [insertionBubble_head_reach i i st (le_refl i) hil hm]
          exact hx
        · rw [if_neg (fun hcon => hgt (hx ▸ hcon))]
          exact insertionBubble_head_stay i i st hil (by omega)
      have hmax' : ∀ k, k < i+1 →
          (lget (insertionBubble cmpAssetSize i st 0 i) k).size
            ≤ (lget (insertionBubble cmpAssetSize i st 0 i) 0).size := by
        intro k hk
        obtain ⟨k', hk', heq⟩ := insertionBubble_origin cmpAssetSize i st i k (by omega)
        rw [heq, hhead]
        by_cases hk'i : k' < i
        · have := hmax k' hk'i
          split <;> omega
        · have hk'eq : k' = i := by omega
          subst hk'eq
          rw [hx]
          split <;> omega
      rw [ih (i+1) (insertionBubble cmpAssetSize i st 0 i) hlen' (by omega) (by omega)
        hframe' hmax']
      rw [hstep, List.foldl_cons, hhead]
    · rw [if_neg hib]
      rw [List.drop_eq_nil_of_le (by omega)]
      rfl

theorem sortFuncGo_small {α : Type} [Inhabited α] (cmp : α → α → Int) (data : List α)
    (h : data.length ≤ 12) :
    sortFuncGo cmp data = insertionSortGo cmp data 0 data.length := by
  unfold sortFuncGo
  rw [pdqsortLoopGo]
  rw [if_pos (by simpa using h)]

theorem tarballCands_nil_iff (assets : List Asset) :
    tarballCands assets = [] ↔ assets.filter isTarballAsset = [] := by
  unfold tarballCands
  dsimp only
  split
  case isTrue _ => exact Iff.rfl
  case isFalse h =>
    constructor
    · intro hnil
      exact absurd hnil (by simpa [List.isEmpty_iff] using h)
    · intro hnil
      exfalso
      have hne : assets.filter isTier1Asset ≠ [] := by simpa [List.isEmpty_iff] using h
      obtain ⟨a, ha⟩ := List.exists_mem_of_ne_nil _ hne
      have h1 := List.of_mem_filter ha
      have h2 : isTarballAsset a = true := by
        unfold isTier1Asset at h1
        unfold isTarballAsset
        exact ((Bool.and_eq_true _ _).mp h1).1
      have hmem : a ∈ assets.filter isTarballAsset :=
        List.mem_filter.mpr ⟨(List.mem_filter.mp ha).1, h2⟩
      rw [hnil] at hmem
      simp at hmem

/-- Claim C2 (amended): `PickLinuxTarball` returns `none` exactly when no
asset name ends with `.tar.gz` (case-insensitively); any returned asset
belongs to the winning tier (tier 1 when non-empty, else tier 2); and
whenever the winning tier holds at most 12 candidates — Go's
`slices.SortFunc` then runs its stable insertion sort — the returned
asset is the one with the largest declared size, first-encountered among
ties.  (For larger tiers the returned asset still comes from the winning
tier, but the unstable pdqsort may return a later-encountered asset
among those tied at the largest size, as the counterexample shows.) -/
theorem pickLinuxTarball_amended (assets : List Asset) :
    (PickLinuxTarball assets = none ↔ assets.filter isTarballAsset = [])
  ∧ (∀ x, PickLinuxTarball assets = some x → x ∈ tarballCands assets)
  ∧ ((tarballCands assets).length ≤ 12 →
      PickLinuxTarball assets = specFirstLargest (tarballCands assets)) := by
  refine ⟨?_, ?_, ?_⟩
  · unfold PickLinuxTarball
    dsimp only
    split
    case isTrue h =>
      exact ⟨fun _ => (tarballCands_nil_iff assets).mp (by simpa [List.isEmpty_iff] using h),
        fun _ => rfl⟩
    case isFalse h =>
      constructor
      · intro hc; cases hc
      · intro hnil
        exact absurd ((tarballCands_nil_iff assets).mpr hnil)
          (by simpa [List.isEmpty_iff] using h)
  · intro x hx
    unfold PickLinuxTarball at hx
    dsimp only at hx
    split at hx
    case isTrue _ => cases hx
    case isFalse h =>
      cases hx
      have hne : tarballCands assets ≠ [] := by simpa [List.isEmpty_iff] using h
      have hpos : 0 < (sortFuncGo cmpAssetSize (tarballCands assets)).length := by
        rw [(sortFuncGo_conserve cmpAssetSize (tarballCands assets)).1]
        exact List.length_pos.mpr hne
      exact (sortFuncGo_conserve cmpAssetSize (tarballCands assets)).2 _ (lget_mem _ 0 hpos)
  · intro h12
    unfold PickLinuxTarball
    dsimp only
    split
    case isTrue h =>
      have hnil : tarballCands assets = [] := by simpa [List.isEmpty_iff] using h
      rw [hnil]
      rfl
    case isFalse h =>
      have hne : tarballCands assets ≠ [] := by simpa [List.isEmpty_iff] using h
      rw [sortFuncGo_small cmpAssetSize (tarballCands assets) h12]
      unfold insertionSortGo
      rw [insertionLoop_head (tarballCands assets) (tarballCands assets).length 1
        (tarballCands assets) rfl (le_refl 1) (by omega) (fun k _ => rfl)
        (fun k hk => by
          have hk0 : k = 0 := by omega
          subst hk0
          exact le_refl _)]
      obtain ⟨c, rest, hcr⟩ := List.exists_cons_of_ne_nil hne
      rw [hcr]
      simp [specFirstLargest, lget]

set_option maxRecDepth 4000 in
/-- Witness for the amended C2 at a two-asset release (payload tarball
plus a checksum sidecar): the tier has one candidate, the insertion-sort
guarantee applies, and the returned asset is in the winning tier. -/
theorem pickLinuxTarball_amended_witness :
    PickLinuxTarball [⟨"GE-Proton9-5.tar.gz", "u", 100, "t"⟩,
        ⟨"GE-Proton9-5.sha512sum", "u", 50, "t"⟩]
      = specFirstLargest (tarballCands [⟨"GE-Proton9-5.tar.gz", "u", 100, "t"⟩,
        ⟨"GE-Proton9-5.sha512sum", "u", 50, "t"⟩])
  ∧ (⟨"GE-Proton9-5.tar.gz", "u", 100, "t"⟩ : Asset)
      ∈ tarballCands [⟨"GE-Proton9-5.tar.gz", "u", 100, "t"⟩,
        ⟨"GE-Proton9-5.sha512sum", "u", 50, "t"⟩] :=
  ⟨(pickLinuxTarball_amended _).2.2 (by decide),
   (pickLinuxTarball_amended _).2.1 _ (by decide)⟩

/-! ## Claim C2: asset selection -/

set_option maxRecDepth 10000 in
/-- Counterexample to claim C2 as stated: on thirteen tier-1 candidates
with the two largest (size 100) in positions 0 and 1,
`PickLinuxTarball` returns the asset `b-ge-proton.tar.gz` from position
1, not the first-encountered largest asset `a-ge-proton.tar.gz`:
`slices.SortFunc` is Go's unstable pattern-defeating quicksort, and its
Hoare partitioning step reorders the two equal-size maxima before the
final insertion sort, so the "stable sort / first-encountered tie-break"
part of the claim fails. -/
theorem pickLinuxTarball_tiebreak_counterexample :
    PickLinuxTarball cexAssets = some ⟨"b-ge-proton.tar.gz", "", 100, ""⟩
    ∧ specFirstLargest (tarballCands cexAssets) = some ⟨"a-ge-proton.tar.gz", "", 100, ""⟩
    ∧ (⟨"b-ge-proton.tar.gz", "", 100, ""⟩ : Asset) ≠ ⟨"a-ge-proton.tar.gz", "", 100, ""⟩ :=
  ⟨by decide, by decide, by decide⟩

/-- Witness for C9: with `"ge-proton9-5"` installed, the release tagged
`"GE-Proton9-7"` survives the filter and its tag differs
case-insensitively from the installed name. -/
theorem available_excludes_installed_witness :
    strToLower (⟨"GE-Proton9-7", "n", false, [], false, ""⟩ : Release).tagName
      ≠ strToLower "ge-proton9-5" :=
  (available_excludes_installed ["ge-proton9-5"]
      [⟨"GE-Proton9-5", "n", false, [], false, ""⟩,
       ⟨"GE-Proton9-7", "n", false, [], false, ""⟩]).1
    ⟨"GE-Proton9-7", "n", false, [], false, ""⟩ (by decide) "ge-proton9-5" (by decide)

end PGM
